import Mathlib

/-!
Verification of the Existential Graphs Reasoner core (`aegraph.cpp`).

Strings are modelled as `List Char` (C++ `std::string`, byte-lexicographic
order modelled through `Char.toNat`).  The single data type `AEGraph`
mirrors the C++ class: a polarity flag `is_SA`, a list of `atoms` and a
list of nested `subgraphs`.

Modelling conventions, each noted again at the definition it concerns:
* functions that in C++ perform out-of-bounds vector accesses (undefined
  behaviour) are modelled as `Option`-valued, returning `none` exactly on
  the inputs where the C++ code would access out of range;
* `std::sort` (unstable, by `operator<`) is modelled as a stable insertion
  sort by the corresponding total `≤`; the two agree except possibly on
  the relative order of elements whose sort key (the `repr` text) is
  identical, which no theorem below depends on;
* the recursion in `AEGraph::AEGraph` (parsing) and in `split_level`
  is bounded in C++ by the input length; here it is expressed with an
  explicit fuel argument, and the public wrappers supply `length + 1`
  fuel, which the lemmas below show is always sufficient;
* `double_cut_helper`, `erase_helper` and `deiterate_helper` test
  `where.capacity() != 1`; since every call (including each recursive
  call) receives the vector by value, freshly copied, its capacity equals
  its size at entry, so the test is modelled as a test on the length.
-/

/-- Whitespace characters removed by `strip` (aegraph.cpp lines 13-18). -/
def isWs (c : Char) : Bool :=
  c == ' ' || c == '\n' || c == '\r' || c == '\t'

/-- `strip` (aegraph.cpp lines 13-18): removes whitespace from the
beginning and the end of the string. -/
def strip (s : List Char) : List Char :=
  ((s.dropWhile isWs).reverse.dropWhile isWs).reverse

/-- Bracket-depth update performed by the loop of `split_first`
(aegraph.cpp lines 32-35): `[` opens, `]` closes. -/
def depthUpd (c : Char) (numOpen : Int) : Int :=
  if c = '[' then numOpen + 1 else if c = ']' then numOpen - 1 else numOpen

/-- Core loop of `split_first` (aegraph.cpp lines 20-39) with delimiter
`,`: scans for the first comma at bracket depth 0, returning the raw text
before it, and the raw text after it when one was found. -/
def sfRaw : List Char → Int → List Char × Option (List Char)
  | [], _ => ([], none)
  | c :: rest, numOpen =>
    if c = ',' ∧ numOpen = 0 then ([], some rest)
    else
      let p := sfRaw rest (depthUpd c numOpen)
      (c :: p.1, p.2)

/-- `split_first` (aegraph.cpp lines 20-39): `<first_cut, rest_of_graph>`,
both stripped; the second component is the empty string when no comma at
depth 0 exists. -/
def split_first (s : List Char) : List Char × List Char :=
  match sfRaw s 0 with
  | (f, none) => (strip f, [])
  | (f, some r) => (strip f, strip r)

/-- Fuelled loop of `split_level` (aegraph.cpp lines 42-57): repeatedly
`split_first`, pushing the first component, stopping when the rest is
empty.  The C++ loop terminates because the rest strictly shrinks; the
wrapper `split_level` supplies `length + 1` fuel, always enough
(`split_level_cons` below). -/
def slF : Nat → List Char → List (List Char)
  | 0, _ => []
  | f + 1, s =>
    let p := split_first s
    if p.2 = [] then [p.1] else p.1 :: slF f p.2

/-- `split_level` (aegraph.cpp lines 42-57): splits `s` into the separate
entities (atoms, subgraphs) at depth-0 commas. -/
def split_level (s : List Char) : List (List Char) :=
  slF (s.length + 1) s

/-- The graph type (aegraph.h / aegraph.cpp): polarity flag `is_SA`
(sheet of assertion versus cut), the atoms at this level, and the nested
subgraphs. -/
inductive AEGraph where
  | mk (is_SA : Bool) (atoms : List (List Char)) (subgraphs : List AEGraph)

/-- Field accessor for the polarity flag. -/
def AEGraph.is_SA : AEGraph → Bool
  | .mk b _ _ => b

/-- Field accessor for the atom list. -/
def AEGraph.atoms : AEGraph → List (List Char)
  | .mk _ a _ => a

/-- Field accessor for the subgraph list. -/
def AEGraph.subgraphs : AEGraph → List AEGraph
  | .mk _ _ s => s

/-- `AEGraph::num_subgraphs` (aegraph.cpp lines 60-62). -/
def AEGraph.num_subgraphs (g : AEGraph) : Nat :=
  g.subgraphs.length

/-- `AEGraph::num_atoms` (aegraph.cpp lines 65-67). -/
def AEGraph.num_atoms (g : AEGraph) : Nat :=
  g.atoms.length

/-- `AEGraph::size` (aegraph.cpp lines 70-72):
`num_atoms() + num_subgraphs()`. -/
def AEGraph.size (g : AEGraph) : Nat :=
  g.num_atoms + g.num_subgraphs

mutual
/-- Structural (constructor-wise) boolean equality on graphs, used only
to furnish decidable equality of the model type. -/
def beqG : AEGraph → AEGraph → Bool
  | .mk b1 a1 s1, .mk b2 a2 s2 => b1 == b2 && a1 == a2 && beqL s1 s2

/-- List companion of `beqG`. -/
def beqL : List AEGraph → List AEGraph → Bool
  | [], [] => true
  | g :: gs, h :: hs => beqG g h && beqL gs hs
  | _, _ => false
end

/-- Byte-lexicographic `≤` on strings, the order underlying
`std::string::operator<` (used by `std::sort` in `AEGraph::sort`,
aegraph.cpp lines 174-182). -/
def strLe : List Char → List Char → Bool
  | [], _ => true
  | _ :: _, [] => false
  | a :: as, b :: bs =>
    if a.toNat < b.toNat then true
    else if b.toNat < a.toNat then false
    else strLe as bs

/-- Ordered insertion, one step of the stable insertion sort that models
`std::sort`. -/
def insSorted (le : α → α → Bool) (x : α) : List α → List α
  | [] => [x]
  | y :: ys => if le x y then x :: y :: ys else y :: insSorted le x ys

/-- Stable insertion sort modelling `std::sort` (see the header comment:
faithful up to the relative order of elements with equal sort key). -/
def isort (le : α → α → Bool) : List α → List α
  | [] => []
  | x :: xs => insSorted le x (isort le xs)

/-- Boolean sortedness: each element `le` its successor. -/
def sortedB (le : α → α → Bool) : List α → Bool
  | [] => true
  | [_] => true
  | x :: y :: ys => le x y && sortedB le (y :: ys)

/-- The atom loop of `AEGraph::repr` (aegraph.cpp lines 159-164):
atoms joined by `", "` with no trailing separator. -/
def joinAtoms : List (List Char) → List Char
  | [] => []
  | [x] => x
  | x :: y :: ys => (x ++ [',', ' ']) ++ joinAtoms (y :: ys)

mutual
/-- `AEGraph::repr` (aegraph.cpp lines 142-171): the serialized
representation; children first, then atoms, joined by `", "`, inside
`()` for the sheet of assertion and `[]` for a cut. -/
def reprG : AEGraph → List Char
  | .mk b a s =>
    let left : Char := if b then '(' else '['
    let right : Char := if b then ')' else ']'
    let result := joinRepr s
    if a.length ≠ 0 then
      left :: (result ++ joinAtoms a) ++ [right]
    else if s.length ≠ 0 then
      left :: result.dropLast.dropLast ++ [right]
    else
      left :: result ++ [right]

/-- The subgraph loop of `AEGraph::repr` (aegraph.cpp lines 155-157):
each subgraph's text followed by `", "`. -/
def joinRepr : List AEGraph → List Char
  | [] => []
  | g :: gs => (reprG g ++ [',', ' ']) ++ joinRepr gs
end

/-- `AEGraph::operator<` (aegraph.cpp lines 75-77) induces this total
`≤` on graphs: comparison of the `repr` texts. -/
def graphLe (x y : AEGraph) : Bool :=
  strLe (reprG x) (reprG y)

mutual
/-- `AEGraph::sort` (aegraph.cpp lines 174-182): sort the atoms, sort
every subgraph recursively, then sort the subgraph list by `operator<`
(comparison of `repr` texts). -/
def sortG : AEGraph → AEGraph
  | .mk b a s => .mk b (isort strLe a) (isort graphLe (sortL s))

/-- The recursive-sorting loop of `AEGraph::sort` (aegraph.cpp
lines 177-179). -/
def sortL : List AEGraph → List AEGraph
  | [] => []
  | g :: gs => sortG g :: sortL gs
end

mutual
/-- `AEGraph::contains(const std::string)` (aegraph.cpp lines 184-194):
the atom occurs at this level or recursively in some subgraph. -/
def containsA : AEGraph → List Char → Bool
  | .mk _ a s, other => a.contains other || containsAL s other

/-- The subgraph loop of `AEGraph::contains(const std::string)`. -/
def containsAL : List AEGraph → List Char → Bool
  | [], _ => false
  | g :: gs, other => containsA g other || containsAL gs other
end

mutual
/-- `AEGraph::get_paths_to(const std::string)` (aegraph.cpp
lines 208-232): atoms equal to `other` at this level (only when the
node's size exceeds 1) at unified index `i + num_subgraphs`, then the
paths found inside each subgraph that contains `other`, prefixed with
the subgraph's index. -/
def gptA : AEGraph → List Char → List (List Nat)
  | .mk b a s, other =>
    ((List.range a.length).filterMap fun i =>
      if a.getD i [] = other ∧ 1 < (AEGraph.mk b a s).size then
        some [i + s.length]
      else none)
    ++ gptAL s other 0

/-- The subgraph loop of `get_paths_to(const std::string)` (aegraph.cpp
lines 222-229), carrying the child index. -/
def gptAL : List AEGraph → List Char → Nat → List (List Nat)
  | [], _, _ => []
  | g :: gs, other, i =>
    (if containsA g other then (gptA g other).map (i :: ·) else [])
    ++ gptAL gs other (i + 1)
end

mutual
/-- `AEGraph::get_paths_to(const AEGraph)` (aegraph.cpp lines 234-252):
for each subgraph index, if the subgraph equals `other` (equality of
`repr` texts, `operator==`) and this node's size exceeds 1, the one-step
path; otherwise the paths found inside that subgraph, prefixed. -/
def gptG : AEGraph → AEGraph → List (List Nat)
  | .mk b a s, other => gptGL s other ((AEGraph.mk b a s).size) 0

/-- The loop of `get_paths_to(const AEGraph)` (aegraph.cpp
lines 240-249), carrying the parent's size and the child index. -/
def gptGL : List AEGraph → AEGraph → Nat → Nat → List (List Nat)
  | [], _, _, _ => []
  | g :: gs, other, sz, i =>
    (if reprG g = reprG other ∧ 1 < sz then [[i]]
     else (gptG g other).map (i :: ·))
    ++ gptGL gs other sz (i + 1)
end

mutual
/-- `AEGraph::possible_double_cuts` (aegraph.cpp lines 255-271): each
subgraph with exactly one subgraph and no atoms is a site; every
subgraph is searched recursively, found addresses prefixed with its
index. -/
def possible_double_cuts : AEGraph → List (List Nat)
  | .mk _ _ s => pdcL s 0

/-- The loop of `possible_double_cuts` (aegraph.cpp lines 259-269). -/
def pdcL : List AEGraph → Nat → List (List Nat)
  | [], _ => []
  | g :: gs, i =>
    ((if g.num_subgraphs = 1 ∧ g.num_atoms = 0 then [[i]] else [])
     ++ (possible_double_cuts g).map (i :: ·))
    ++ pdcL gs (i + 1)
end

mutual
/-- `AEGraph::possible_erasures` (aegraph.cpp lines 299-324).  The C++
loop runs `i` over the whole unified index space `0 ≤ i < size`; when
`level` is odd it pushes `{i}` and immediately pops it again when
`level != -1` and the node is a one-element node (its only atom with no
subgraphs, or its only subgraph with no atoms) — the two pop conditions
are mutually exclusive and the pop always removes the vector entry
pushed in the same iteration, so the net effect per index is captured by
the `emit` flag.  For subgraph indices it then recurses with
`level + 1`, prefixing `i`. -/
def possible_erasures : AEGraph → Int → List (List Nat)
  | .mk b a s, level =>
    let g := AEGraph.mk b a s
    let emit := level % 2 ≠ 0 ∧
      ¬(level ≠ -1 ∧
        ((g.num_subgraphs = 0 ∧ g.num_atoms = 1) ∨
         (g.num_subgraphs = 1 ∧ g.num_atoms = 0)))
    peL s level (decide emit) 0
    ++ (if emit then (List.range' s.length a.length).map (fun i => [i])
        else [])

/-- The subgraph part of the `possible_erasures` loop (aegraph.cpp
lines 304-322): candidate (if emitted) then recursion, per subgraph
index. -/
def peL : List AEGraph → Int → Bool → Nat → List (List Nat)
  | [], _, _, _ => []
  | g :: gs, level, emit, i =>
    ((if emit then [[i]] else [])
     ++ (possible_erasures g (level + 1)).map (i :: ·))
    ++ peL gs level emit (i + 1)
end

/-- Default graph used for (always in-range) indexed access in loops. -/
def dfltG : AEGraph := .mk true [] []

/-- `AEGraph::possible_deiterations` (aegraph.cpp lines 351-375): for
every ordered pair of distinct subgraph indices `(i, j)`, the paths to
subgraph `i` inside subgraph `j`, prefixed with `j`; then for every atom
and every subgraph index `j`, the paths to that atom inside subgraph
`j`, prefixed with `j`. -/
def possible_deiterations (g : AEGraph) : List (List Nat) :=
  ((List.range g.num_subgraphs).flatMap fun i =>
    (List.range g.num_subgraphs).flatMap fun j =>
      if i ≠ j then
        (gptG (g.subgraphs.getD j dfltG) (g.subgraphs.getD i dfltG)).map
          (j :: ·)
      else [])
  ++ ((List.range g.num_atoms).flatMap fun i =>
      (List.range g.num_subgraphs).flatMap fun j =>
        (gptA (g.subgraphs.getD j dfltG) (g.atoms.getD i [])).map (j :: ·))

/-- `AEGraph::double_cut_helper` (aegraph.cpp lines 273-289): descend
along the address while it has more than one entry; at the final entry
`i`, append the atoms and subgraphs of `subgraphs[i].subgraphs[0]` to
this node's own and delete `subgraphs[i]`.  `none` models the C++
out-of-range vector accesses (empty address, descent index out of range,
final index out of range, or a final child with no subgraph). -/
def double_cut_helper : AEGraph → List Nat → Option AEGraph
  | _, [] => none
  | .mk b a s, [i] =>
    if h : i < s.length then
      match s.get ⟨i, h⟩ with
      | .mk _ _ca (aux :: _) =>
        some (.mk b (a ++ aux.atoms)
          ((s ++ aux.subgraphs).eraseIdx i))
      | .mk _ _ [] => none
    else none
  | .mk b a s, i :: rest =>
    if h : i < s.length then
      match double_cut_helper (s.get ⟨i, h⟩) rest with
      | some c => some (.mk b a (s.set i c))
      | none => none
    else none

/-- `AEGraph::double_cut` (aegraph.cpp lines 291-296): apply the helper
to a copy. -/
def AEGraph.double_cut (g : AEGraph) (w : List Nat) : Option AEGraph :=
  double_cut_helper g w

/-- `AEGraph::erase_helper` (aegraph.cpp lines 326-341): descend along
the address while it has more than one entry; at the final entry `i`,
erase the atom at `i - num_subgraphs` when `num_subgraphs - i <= 0`,
otherwise the subgraph at `i`.  `none` models the C++ out-of-range
vector accesses. -/
def erase_helper : AEGraph → List Nat → Option AEGraph
  | _, [] => none
  | .mk b a s, [i] =>
    if s.length ≤ i then
      if i - s.length < a.length then
        some (.mk b (a.eraseIdx (i - s.length)) s)
      else none
    else some (.mk b a (s.eraseIdx i))
  | .mk b a s, i :: rest =>
    if h : i < s.length then
      match erase_helper (s.get ⟨i, h⟩) rest with
      | some c => some (.mk b a (s.set i c))
      | none => none
    else none

/-- `AEGraph::erase` (aegraph.cpp lines 343-348). -/
def AEGraph.erase (g : AEGraph) (w : List Nat) : Option AEGraph :=
  erase_helper g w

/-- `AEGraph::deiterate_helper` (aegraph.cpp lines 377-391): the same
mechanics as `erase_helper`, repeated verbatim in the source. -/
def deiterate_helper : AEGraph → List Nat → Option AEGraph
  | _, [] => none
  | .mk b a s, [i] =>
    if s.length ≤ i then
      if i - s.length < a.length then
        some (.mk b (a.eraseIdx (i - s.length)) s)
      else none
    else some (.mk b a (s.eraseIdx i))
  | .mk b a s, i :: rest =>
    if h : i < s.length then
      match deiterate_helper (s.get ⟨i, h⟩) rest with
      | some c => some (.mk b a (s.set i c))
      | none => none
    else none

/-- `AEGraph::deiterate` (aegraph.cpp lines 393-398). -/
def AEGraph.deiterate (g : AEGraph) (w : List Nat) : Option AEGraph :=
  deiterate_helper g w

/-- Sequencing of the recursive subgraph parses inside the constructor:
all must succeed (a failing `assert` in any recursive construction
aborts the whole construction). -/
def mapOptG (p : List Char → Option AEGraph) :
    List (List Char) → Option (List AEGraph)
  | [] => some []
  | e :: es =>
    match p e, mapOptG p es with
    | some g, some gs => some (g :: gs)
    | _, _ => none

/-- The constructor `AEGraph::AEGraph(std::string)` (aegraph.cpp
lines 105-140), with an explicit fuel bounding the nesting recursion
(the wrapper `AEGraph.ofString` supplies `length + 1`, always enough —
`ofStringFuel_depth` below).  `none` models a failing `assert` on the
outer delimiters, including in a recursive call on a subexpression; an
empty input, whose last-character read is out of range in C++, is also
`none`.  The content between the delimiters is split at depth-0 commas;
elements not starting with `[` (including the empty element, whose
`s[0]` reads as `'\0'` in C++) become atoms in scan order, the others
are parsed recursively as subgraphs; finally the node is sorted. -/
def ofStringFuel : Nat → List Char → Option AEGraph
  | 0, _ => none
  | f + 1, s =>
    match s with
    | [] => none
    | c0 :: rest =>
      let right := (c0 :: rest).getLast (by simp)
      if (c0 = '(' ∧ right = ')') ∨ (c0 = '[' ∧ right = ']') then
        let content := ((c0 :: rest).drop 1).dropLast
        let elems := split_level content
        let atomsE := elems.filter fun e => !(e.head? == some '[')
        let subsE := elems.filter fun e => e.head? == some '['
        match mapOptG (fun e => ofStringFuel f e) subsE with
        | some gs => some (sortG (.mk (c0 == '(') atomsE gs))
        | none => none
      else none

/-- `AEGraph::AEGraph(std::string)` — the public parsing entry point. -/
def AEGraph.ofString (s : List Char) : Option AEGraph :=
  ofStringFuel (s.length + 1) s

/-- `AEGraph::operator[]` (aegraph.cpp lines 87-98): the subgraph at
`index` when `index < num_subgraphs`; otherwise, when `index` is within
the unified range, the graph built from `"(" + atom + ")"`; otherwise
the graph built from `"()"`.  The atom cases call the constructor, so
they are `Option`-valued like it (its outer-delimiter assert is
trivially satisfied here, but a recursive assert can fire for exotic
atom texts). -/
def AEGraph.child_or_atom_at (g : AEGraph) (index : Nat) : Option AEGraph :=
  if index < g.num_subgraphs then
    some (g.subgraphs.getD index dfltG)
  else if index < g.num_subgraphs + g.num_atoms then
    AEGraph.ofString ('(' :: g.atoms.getD (index - g.num_subgraphs) [] ++ [')'])
  else
    AEGraph.ofString ['(', ')']

/-- Address resolution (spec §3): descend one subgraph index per
address entry, `none` when an index is not a valid subgraph index. -/
def descend : AEGraph → List Nat → Option AEGraph
  | g, [] => some g
  | g, i :: rest =>
    if h : i < g.subgraphs.length then descend (g.subgraphs.get ⟨i, h⟩) rest
    else none

/-- Resolution of a full address to the element its last entry names in
the unified index space of the node reached by the preceding entries
(spec §3): a subgraph, or an atom at `last - num_subgraphs`. -/
def resolveElem : AEGraph → List Nat → Option (AEGraph ⊕ List Char)
  | _, [] => none
  | g, [i] =>
    if i < g.num_subgraphs then some (Sum.inl (g.subgraphs.getD i dfltG))
    else if i < g.size then
      some (Sum.inr (g.atoms.getD (i - g.num_subgraphs) []))
    else none
  | g, i :: rest =>
    if h : i < g.subgraphs.length then
      resolveElem (g.subgraphs.get ⟨i, h⟩) rest
    else none

/-- Modelled from the spec (§4.4, `remove_double_cut`): descend along
the address to the target child (the outer cut); at its parent's level,
remove that child and splice the grandchild's atoms and subgraphs
directly into the parent's own sequences.  Used as the specification
side of claim C2, to be compared with `AEGraph.double_cut`. -/
def spliceAt : AEGraph → List Nat → AEGraph
  | g, [] => g
  | g, [i] =>
    let inner := (g.subgraphs.getD i dfltG).subgraphs.getD 0 dfltG
    .mk g.is_SA (g.atoms ++ inner.atoms)
      (g.subgraphs.eraseIdx i ++ inner.subgraphs)
  | g, i :: rest =>
    .mk g.is_SA g.atoms
      (g.subgraphs.set i (spliceAt (g.subgraphs.getD i dfltG) rest))

/-- The bracket-depth safety predicate for `split_first`: scanning `s`
from bracket depth `d`, no comma is met at depth 0 (so the scan of
`split_first` does not split inside `s`). -/
def scanOK : List Char → Int → Prop
  | [], _ => True
  | c :: rest, d => ¬(c = ',' ∧ d = 0) ∧ scanOK rest (depthUpd c d)

/-- The bracket depth after scanning `s` from depth `d`. -/
def netd (s : List Char) (d : Int) : Int :=
  s.foldl (fun d2 c => depthUpd c d2) d

/-- Left delimiter of a node's text, by polarity. -/
def leftc (b : Bool) : Char :=
  if b then '(' else '['

/-- Right delimiter of a node's text, by polarity. -/
def rightc (b : Bool) : Char :=
  if b then ')' else ']'

/-- The comma-separated element texts of a node: subgraph texts first,
then atoms — the list whose `joinAtoms`-join is the text between the
delimiters of `repr` (`reprG_shape` below). -/
def reprElems (a : List (List Char)) (s : List AEGraph) : List (List Char) :=
  s.map reprG ++ a

mutual
/-- Nesting depth of a graph (1 for a leaf node); bounds the recursion
depth of the parser on the graph's own text. -/
def depthG : AEGraph → Nat
  | .mk _ _ s => depthL s + 1

/-- List companion of `depthG`. -/
def depthL : List AEGraph → Nat
  | [] => 0
  | g :: gs => max (depthG g) (depthL gs)
end

mutual
/-- The canonical-form invariant (spec §3): atoms sorted, subgraphs
sorted by their `repr` text, recursively. -/
def canonicalB : AEGraph → Bool
  | .mk _ a s => sortedB strLe a && sortedB graphLe s && canL s

/-- List companion of `canonicalB`. -/
def canL : List AEGraph → Bool
  | [] => true
  | g :: gs => canonicalB g && canL gs
end

/-- A well-formed atom token: nonempty, not beginning or ending in
whitespace (hence fixed by `strip`), and free of the structural
characters `,`, `[`, `]` — the shape of ordinary propositional letters
(spec §3, §6). -/
def wfAtomB (e : List Char) : Bool :=
  !e.isEmpty && (e.head?.all fun c => !isWs c) &&
    (e.getLast?.all fun c => !isWs c) &&
    e.all fun c => !(c == ',' || c == '[' || c == ']')

mutual
/-- Well-formed graph: every node nonempty with well-formed atom
tokens, and every nested node a cut (`is_SA = false`), as produced by
parsing ordinary inputs (spec §3, §6). -/
def wfG : AEGraph → Bool
  | .mk _ a s => !(a.isEmpty && s.isEmpty) && a.all wfAtomB && wfL s

/-- List companion of `wfG`: nested nodes are cuts. -/
def wfL : List AEGraph → Bool
  | [] => true
  | g :: gs => (!g.is_SA && wfG g) && wfL gs
end

/-! ## Infrastructure -/

/-- Structural induction principle for the nested inductive `AEGraph`. -/
theorem AEGraph.myInd (P : AEGraph → Prop)
    (h : ∀ b a s, (∀ g ∈ s, P g) → P (.mk b a s)) : ∀ g, P g
  | .mk b a s => h b a s (fun g hg => AEGraph.myInd P h g)
termination_by g => sizeOf g
decreasing_by
  have := List.sizeOf_lt_of_mem hg
  simp only [AEGraph.mk.sizeOf_spec]
  omega

theorem beqG_iff : ∀ g h, beqG g h = true ↔ g = h := by
  intro g
  induction g using AEGraph.myInd with
  | h b a s ih =>
    intro h
    cases h with
    | mk b' a' s' =>
      simp only [beqG, Bool.and_eq_true, beq_iff_eq, AEGraph.mk.injEq]
      constructor
      · rintro ⟨⟨hb, ha⟩, hs⟩
        refine ⟨hb, ha, ?_⟩
        clear hb ha
        induction s generalizing s' with
        | nil => cases s' <;> simp_all [beqL]
        | cons x xs ihx =>
          cases s' with
          | nil => simp [beqL] at hs
          | cons y ys =>
            simp only [beqL, Bool.and_eq_true] at hs
            have h1 := (ih x (by simp) y).mp hs.1
            have h2 := ihx (fun g hg => ih g (by simp [hg])) ys hs.2
            simp [h1, h2]
      · rintro ⟨hb, ha, hs⟩
        subst hb; subst ha; subst hs
        refine ⟨⟨rfl, rfl⟩, ?_⟩
        induction s with
        | nil => simp [beqL]
        | cons x xs ihx =>
          simp only [beqL, Bool.and_eq_true]
          exact ⟨(ih x (by simp) x).mpr rfl,
            ihx (fun g hg => ih g (by simp [hg]))⟩

instance : DecidableEq AEGraph := fun g h =>
  decidable_of_iff (beqG g h = true) (beqG_iff g h)

@[simp] theorem AEGraph.is_SA_mk (b : Bool) (a : List (List Char))
    (s : List AEGraph) : (AEGraph.mk b a s).is_SA = b := rfl

@[simp] theorem AEGraph.atoms_mk (b : Bool) (a : List (List Char))
    (s : List AEGraph) : (AEGraph.mk b a s).atoms = a := rfl

@[simp] theorem AEGraph.subgraphs_mk (b : Bool) (a : List (List Char))
    (s : List AEGraph) : (AEGraph.mk b a s).subgraphs = s := rfl

@[simp] theorem AEGraph.num_subgraphs_mk (b : Bool) (a : List (List Char))
    (s : List AEGraph) : (AEGraph.mk b a s).num_subgraphs = s.length := rfl

@[simp] theorem AEGraph.num_atoms_mk (b : Bool) (a : List (List Char))
    (s : List AEGraph) : (AEGraph.mk b a s).num_atoms = a.length := rfl

@[simp] theorem AEGraph.size_mk (b : Bool) (a : List (List Char))
    (s : List AEGraph) :
    (AEGraph.mk b a s).size = a.length + s.length := rfl

/-! ## Claim C8: deiteration and erasure have identical removal
mechanics -/

theorem deiterate_helper_eq_erase_helper :
    ∀ (w : List Nat) (g : AEGraph),
      deiterate_helper g w = erase_helper g w := by
  intro w
  induction w with
  | nil => intro g; cases g <;> rfl
  | cons i rest ih =>
    intro g
    cases g with
    | mk b a s =>
      cases rest with
      | nil => rfl
      | cons j rest' =>
        simp only [deiterate_helper, erase_helper, ih]

/-- C8: for every graph and every address, `deiterate` returns exactly
what `erase` returns: the two appliers are the same function, both
descending to the parent level named by the address and deleting the
indicated subgraph (final index in the subgraph range) or atom
(otherwise). -/
theorem C8_deiterate_eq_erase :
    ∀ (g : AEGraph) (w : List Nat), g.deiterate w = g.erase w := by
  intro g w
  simpa [AEGraph.deiterate, AEGraph.erase] using
    deiterate_helper_eq_erase_helper w g

/-! ## Claim C5: parsing the empty cut -/

/-- C5 counterexample: `"[]"` and `"()"` do *not* parse to size-0
nodes; the C++ constructor pushes the empty element between the
delimiters as a single empty-string atom (`split_level` of the empty
content yields one empty entity, and its `s[0]`, read as `'\0'`, is not
`'['`), so both parse to nodes of size 1. -/
theorem C5_empty_cut_counterexample :
    (AEGraph.ofString "[]".toList).map AEGraph.size = some 1 ∧
    (AEGraph.ofString "()".toList).map AEGraph.size = some 1 := by
  decide

/-- C5 amended: `"[]"` parses to a cut node with the single atom `""`
and no subgraphs (size 1, not 0); `"()"` parses to the sheet-of-assertion
node with the single atom `""`; and `"[[]]"` parses to a node whose
single child has size 1. -/
theorem C5_empty_cut_parses :
    AEGraph.ofString "[]".toList = some (.mk false [[]] []) ∧
    AEGraph.ofString "()".toList = some (.mk true [[]] []) ∧
    AEGraph.ofString "[[]]".toList
      = some (.mk false [] [.mk false [[]] []]) ∧
    (AEGraph.ofString "[[]]".toList).map
      (fun g => (g.subgraphs.getD 0 dfltG).size) = some 1 := by
  decide

/-! ## Claim C9: the unified child/atom accessor -/

theorem sfRaw_no_comma (s : List Char) (h : ∀ c ∈ s, ¬(c = ',')) :
    ∀ d, sfRaw s d = (s, none) := by
  induction s with
  | nil => intro d; rfl
  | cons c cs ih =>
    intro d
    have hc : ¬(c = ',') := h c (by simp)
    simp only [sfRaw, if_neg (by tauto : ¬(c = ',' ∧ d = 0))]
    rw [ih (fun x hx => h x (by simp [hx]))]

theorem split_level_no_comma (s : List Char) (h : ∀ c ∈ s, ¬(c = ','))
    (hs : strip s = s) : split_level s = [s] := by
  have h1 : split_first s = (s, []) := by
    simp only [split_first, sfRaw_no_comma s h 0, hs]
  simp only [split_level, List.length_eq_zero.symm, slF, h1]
  rfl

theorem dropWhile_eq_self_of_head (p : Char → Bool) (t : List Char)
    (h : ∀ c, t.head? = some c → p c = false) : t.dropWhile p = t := by
  cases t with
  | nil => rfl
  | cons c rest => simp [List.dropWhile_cons, h c rfl]

theorem strip_eq_self (t : List Char)
    (h1 : ∀ c, t.head? = some c → isWs c = false)
    (h2 : ∀ c, t.getLast? = some c → isWs c = false) : strip t = t := by
  unfold strip
  rw [dropWhile_eq_self_of_head _ _ h1]
  rw [dropWhile_eq_self_of_head _ _ (fun c hc => h2 c (by
    rwa [List.head?_reverse] at hc))]
  exact List.reverse_reverse t

theorem wfAtomB_parts (a : List Char) (h : wfAtomB a = true) :
    a ≠ [] ∧ strip a = a ∧
      ∀ c ∈ a, ¬(c = ',') ∧ ¬(c = '[') ∧ ¬(c = ']') := by
  simp only [wfAtomB, Bool.and_eq_true, List.all_eq_true] at h
  obtain ⟨⟨⟨hne, hhd⟩, hlast⟩, hall⟩ := h
  refine ⟨?_, ?_, ?_⟩
  · intro he
    subst he
    simp at hne
  · refine strip_eq_self a ?_ ?_
    · intro c hc
      rw [hc] at hhd
      simpa using hhd
    · intro c hc
      rw [hc] at hlast
      simpa using hlast
  · intro c hc
    have h4 := hall c hc
    simp only [Bool.not_eq_true', Bool.or_eq_false_iff,
      beq_eq_false_iff_ne] at h4
    exact ⟨h4.1.1, h4.1.2, h4.2⟩

theorem ofStringFuel_wrap_atom (f : Nat) (a : List Char)
    (h : wfAtomB a = true) :
    ofStringFuel (f + 1) ('(' :: (a ++ [')'])) = some (.mk true [a] []) := by
  obtain ⟨hne, hs, hc⟩ := wfAtomB_parts a h
  obtain ⟨c, cs, rfl⟩ : ∃ c cs, a = c :: cs := by
    cases a with
    | nil => exact absurd rfl hne
    | cons c cs => exact ⟨c, cs, rfl⟩
  have hnb : ((c :: cs).head? == some '[') = false := by
    simp only [List.head?_cons]
    exact beq_eq_false_iff_ne.mpr (by
      intro hx
      injection hx with hx2
      exact (hc c (by simp)).2.1 hx2)
  simp only [ofStringFuel]
  rw [List.getLast_cons (by simp : (c :: cs) ++ [')'] ≠ [])]
  rw [List.getLast_append]
  simp only [List.drop_succ_cons, List.drop_zero, List.dropLast_concat]
  rw [split_level_no_comma _ (fun x hx => (hc x hx).1) hs]
  rw [if_pos (by simp)]
  simp only [List.filter_cons, List.filter_nil, hnb, Bool.not_false,
    if_pos, cond_true, cond_false]
  rfl

theorem ofString_wrap_atom (a : List Char) (h : wfAtomB a = true) :
    AEGraph.ofString ('(' :: (a ++ [')'])) = some (.mk true [a] []) := by
  show ofStringFuel (('(' :: (a ++ [')'])).length + 1) _ = _
  simp only [List.length_cons]
  exact ofStringFuel_wrap_atom _ a h

/-- C9 counterexample: the out-of-range fallback of `operator[]` is not
an *empty* sheet-of-assertion node: on `parse("(A)")`, index 5 yields
`AEGraph("()")`, which carries one empty-string atom and has size 1,
not 0. -/
theorem C9_fallback_not_empty :
    AEGraph.ofString "(A)".toList = some (.mk true [['A']] []) ∧
    (AEGraph.mk true [['A']] []).child_or_atom_at 5
      = some (.mk true [[]] []) ∧
    ((AEGraph.mk true [['A']] []).child_or_atom_at 5).map AEGraph.size
      = some 1 := by
  decide

/-- C9 (amended): on a graph whose atoms are well-formed tokens the
unified accessor never errors: it returns the subgraph at the index when
below the subgraph count, a single-atom sheet-of-assertion node wrapping
the atom at `index - num_subgraphs` when within the combined range, and
the node parsed from `"()"` — a sheet-of-assertion node with a single
empty atom, of size 1 rather than empty — when out of range. -/
theorem C9_child_or_atom_total (g : AEGraph) (i : Nat)
    (hwf : g.atoms.all wfAtomB = true) :
    (∃ e, g.child_or_atom_at i = some e) ∧
    (i < g.num_subgraphs →
      g.child_or_atom_at i = some (g.subgraphs.getD i dfltG)) ∧
    (g.num_subgraphs ≤ i → i < g.num_subgraphs + g.num_atoms →
      g.child_or_atom_at i
        = some (.mk true [g.atoms.getD (i - g.num_subgraphs) []] [])) ∧
    (g.num_subgraphs + g.num_atoms ≤ i →
      g.child_or_atom_at i = some (.mk true [[]] [])) := by
  have hout : AEGraph.ofString ['(', ')'] = some (.mk true [[]] []) := by
    decide
  have hchild : i < g.num_subgraphs →
      g.child_or_atom_at i = some (g.subgraphs.getD i dfltG) := by
    intro h1
    simp only [AEGraph.child_or_atom_at, if_pos h1]
  have hatom : g.num_subgraphs ≤ i → i < g.num_subgraphs + g.num_atoms →
      g.child_or_atom_at i
        = some (.mk true [g.atoms.getD (i - g.num_subgraphs) []] []) := by
    intro h1 h2
    have hlt : i - g.num_subgraphs < g.atoms.length := by
      simp only [AEGraph.num_atoms, AEGraph.num_subgraphs] at h1 h2 ⊢
      omega
    have hw : wfAtomB (g.atoms.getD (i - g.num_subgraphs) []) = true := by
      rw [List.getD_eq_getElem _ _ hlt]
      exact List.all_eq_true.mp hwf _ (List.getElem_mem hlt)
    simp only [AEGraph.child_or_atom_at, if_neg (by omega : ¬i < g.num_subgraphs),
      if_pos h2]
    exact ofString_wrap_atom _ hw
  have hoor : g.num_subgraphs + g.num_atoms ≤ i →
      g.child_or_atom_at i = some (.mk true [[]] []) := by
    intro h1
    simp only [AEGraph.child_or_atom_at,
      if_neg (by omega : ¬i < g.num_subgraphs),
      if_neg (by omega : ¬i < g.num_subgraphs + g.num_atoms)]
    exact hout
  refine ⟨?_, hchild, hatom, hoor⟩
  by_cases h1 : i < g.num_subgraphs
  · exact ⟨_, hchild h1⟩
  · by_cases h2 : i < g.num_subgraphs + g.num_atoms
    · exact ⟨_, hatom (by omega) h2⟩
    · exact ⟨_, hoor (by omega)⟩

theorem C9_child_or_atom_total_witness :
    ((AEGraph.mk true [['A']] [.mk false [['B']] []]).atoms.all wfAtomB
      = true) ∧
    (AEGraph.mk true [['A']] [.mk false [['B']] []]).child_or_atom_at 0
      = some (.mk false [['B']] []) ∧
    (AEGraph.mk true [['A']] [.mk false [['B']] []]).child_or_atom_at 1
      = some (.mk true [['A']] []) ∧
    (AEGraph.mk true [['A']] [.mk false [['B']] []]).child_or_atom_at 9
      = some (.mk true [[]] []) := by
  refine ⟨by decide, ?_, ?_, ?_⟩
  · exact ((C9_child_or_atom_total (.mk true [['A']] [.mk false [['B']] []])
      0 (by decide)).2.1 (by decide)).trans (by decide)
  · exact ((C9_child_or_atom_total (.mk true [['A']] [.mk false [['B']] []])
      1 (by decide)).2.2.1 (by decide) (by decide)).trans (by decide)
  · exact (C9_child_or_atom_total (.mk true [['A']] [.mk false [['B']] []])
      9 (by decide)).2.2.2 (by decide)

/-! ## Claim C4: canonicalization -/

theorem sortedB_tail {le : α → α → Bool} {x : α} {l : List α}
    (h : sortedB le (x :: l) = true) : sortedB le l = true := by
  cases l with
  | nil => rfl
  | cons y ys =>
    have h2 : le x y = true ∧ sortedB le (y :: ys) = true := by
      simpa [sortedB, Bool.and_eq_true] using h
    exact h2.2

theorem insSorted_sorted {le : α → α → Bool}
    (htot : ∀ a b, le a b = true ∨ le b a = true) :
    ∀ (l : List α) (x : α), sortedB le l = true →
      sortedB le (insSorted le x l) = true := by
  intro l
  induction l with
  | nil => intro x _; rfl
  | cons y ys ih =>
    intro x hs
    have hys : sortedB le ys = true := sortedB_tail hs
    by_cases hxy : le x y = true
    · simpa [insSorted, hxy, sortedB, Bool.and_eq_true] using hs
    · have hyx : le y x = true := (htot x y).resolve_left hxy
      simp only [insSorted, if_neg hxy]
      cases ys with
      | nil => simp [insSorted, sortedB, hyx]
      | cons z zs =>
        have hsplit : le y z = true ∧ sortedB le (z :: zs) = true := by
          simpa [sortedB, Bool.and_eq_true] using hs
        have hrec := ih x hys
        by_cases hxz : le x z = true
        · rw [show insSorted le x (z :: zs) = x :: z :: zs from by
            simp [insSorted, hxz]]
          simp only [sortedB, Bool.and_eq_true]
          exact ⟨hyx, by simpa [sortedB, Bool.and_eq_true] using
            ⟨hxz, hsplit.2⟩⟩
        · rw [show insSorted le x (z :: zs) = z :: insSorted le x zs from by
            simp [insSorted, hxz]]
          simp only [insSorted, if_neg hxz] at hrec
          simp only [sortedB, Bool.and_eq_true]
          exact ⟨hsplit.1, hrec⟩

theorem isort_sorted {le : α → α → Bool}
    (htot : ∀ a b, le a b = true ∨ le b a = true) :
    ∀ l : List α, sortedB le (isort le l) = true := by
  intro l
  induction l with
  | nil => rfl
  | cons x xs ih => exact insSorted_sorted htot _ x ih

theorem isort_eq_self {le : α → α → Bool} :
    ∀ l : List α, sortedB le l = true → isort le l = l := by
  intro l
  induction l with
  | nil => intro _; rfl
  | cons x xs ih =>
    intro h
    have hxs := sortedB_tail h
    simp only [isort, ih hxs]
    cases xs with
    | nil => rfl
    | cons y ys =>
      have h2 : le x y = true ∧ sortedB le (y :: ys) = true := by
        simpa [sortedB, Bool.and_eq_true] using h
      simp [insSorted, h2.1]

theorem mem_insSorted {le : α → α → Bool} {x z : α} :
    ∀ {l : List α}, z ∈ insSorted le x l ↔ z = x ∨ z ∈ l := by
  intro l
  induction l with
  | nil => simp [insSorted]
  | cons y ys ih =>
    by_cases hxy : le x y = true
    · simp only [insSorted, if_pos hxy, List.mem_cons]
      try tauto
    · simp only [insSorted, if_neg hxy, List.mem_cons, ih]
      try tauto

theorem mem_isort {le : α → α → Bool} {z : α} :
    ∀ {l : List α}, z ∈ isort le l ↔ z ∈ l := by
  intro l
  induction l with
  | nil => simp [isort]
  | cons x xs ih => simp [isort, mem_insSorted, ih]

theorem strLe_total : ∀ a b : List Char,
    strLe a b = true ∨ strLe b a = true := by
  intro a
  induction a with
  | nil => intro b; left; rfl
  | cons c cs ih =>
    intro b
    cases b with
    | nil => right; rfl
    | cons d ds =>
      rcases Nat.lt_trichotomy c.toNat d.toNat with h | h | h
      · left; simp [strLe, h]
      · have h2 : ¬c.toNat < d.toNat := by omega
        have h3 : ¬d.toNat < c.toNat := by omega
        rcases ih ds with h4 | h4
        · left; simp [strLe, h2, h3, h4]
        · right; simp [strLe, h2, h3, h4]
      · right; simp [strLe, h]

theorem graphLe_total : ∀ x y : AEGraph,
    graphLe x y = true ∨ graphLe y x = true := by
  intro x y
  exact strLe_total (reprG x) (reprG y)

theorem canL_iff : ∀ s : List AEGraph,
    canL s = true ↔ ∀ g ∈ s, canonicalB g = true := by
  intro s
  induction s with
  | nil => simp [canL]
  | cons g gs ih => simp [canL, Bool.and_eq_true, ih]

theorem sortL_eq_map : ∀ s : List AEGraph, sortL s = s.map sortG := by
  intro s
  induction s with
  | nil => rfl
  | cons g gs ih => simp [sortL, ih]

theorem sortG_canonical : ∀ g, canonicalB (sortG g) = true := by
  intro g
  induction g using AEGraph.myInd with
  | h b a s ih =>
    simp only [sortG, canonicalB, Bool.and_eq_true]
    refine ⟨⟨isort_sorted strLe_total a, isort_sorted graphLe_total _⟩, ?_⟩
    rw [canL_iff]
    intro x hx
    rw [mem_isort, sortL_eq_map, List.mem_map] at hx
    obtain ⟨c, hc, rfl⟩ := hx
    exact ih c hc

theorem ofStringFuel_canonical :
    ∀ (f : Nat) (s : List Char) (g : AEGraph),
      ofStringFuel f s = some g → canonicalB g = true := by
  intro f s g h
  cases f with
  | zero => exact absurd h (by simp [ofStringFuel])
  | succ f =>
    cases s with
    | nil => exact absurd h (by simp [ofStringFuel])
    | cons c0 rest =>
      simp only [ofStringFuel] at h
      split at h
      · split at h
        · rw [Option.some.injEq] at h
          subst h
          exact sortG_canonical _
        · exact absurd h (by simp)
      · exact absurd h (by simp)

/-- C4 counterexample: `double_cut` does not re-canonicalize its result.
On the canonical graph `parse("(Z, [[A]])")`, the address `[0]` is the
(sole) enumerated double-cut site, and applying `double_cut` there
appends the inner atom `A` after `Z`, producing atom order `Z, A` —
not lexicographically sorted, hence not canonical. -/
theorem C4_double_cut_not_canonical :
    AEGraph.ofString "(Z, [[A]])".toList
      = some (.mk true [['Z']] [.mk false [] [.mk false [['A']] []]]) ∧
    canonicalB (.mk true [['Z']] [.mk false [] [.mk false [['A']] []]])
      = true ∧
    possible_double_cuts
      (.mk true [['Z']] [.mk false [] [.mk false [['A']] []]]) = [[0]] ∧
    (AEGraph.mk true [['Z']] [.mk false [] [.mk false [['A']] []]]).double_cut
      [0] = some (.mk true [['Z'], ['A']] []) ∧
    canonicalB (.mk true [['Z'], ['A']] []) = false := by
  decide

/-- C4 (amended): every graph constructed from text is canonicalized —
the constructor ends by sorting recursively — but the rule appliers do
not re-sort: `double_cut` can return a non-canonical graph even on a
canonicalized input (`C4_double_cut_not_canonical`), and so can
`erase`/`deiterate`, which splice sorted lists only positionally. -/
theorem C4_parse_canonical (s : List Char) (g : AEGraph)
    (h : AEGraph.ofString s = some g) : canonicalB g = true :=
  ofStringFuel_canonical _ s g h

theorem C4_parse_canonical_witness :
    AEGraph.ofString "(A, [B])".toList
      = some (.mk true [['A']] [.mk false [['B']] []]) ∧
    canonicalB (.mk true [['A']] [.mk false [['B']] []]) = true :=
  ⟨by decide, C4_parse_canonical "(A, [B])".toList _ (by decide)⟩

/-! ## Claim C2: double-cut removal splices the grandchild into the
parent -/

/-- Shared helper, the substance of claim C2: at any address resolving
to a child of double-cut shape, `double_cut` succeeds and returns the
`spliceAt` rebuild. -/
theorem double_cut_splices (g n : AEGraph) (pre : List Nat) (i : Nat)
    (hdesc : descend g pre = some n)
    (hi : i < n.num_subgraphs)
    (hshape : (n.subgraphs.getD i dfltG).num_subgraphs = 1 ∧
      (n.subgraphs.getD i dfltG).num_atoms = 0) :
    g.double_cut (pre ++ [i]) = some (spliceAt g (pre ++ [i])) := by
  induction pre generalizing g with
  | nil =>
    have hn : g = n := by simpa [descend] using hdesc
    subst hn
    cases g with
    | mk b a s =>
      simp only [AEGraph.num_subgraphs, AEGraph.subgraphs] at hi hshape
      have hget : s.getD i dfltG = s.get ⟨i, hi⟩ := by
        simp [List.getD_eq_getElem, hi]
      rw [hget] at hshape
      obtain ⟨cb, ca, cs, hcs⟩ : ∃ cb ca cs, s.get ⟨i, hi⟩ = .mk cb ca cs := by
        cases s.get ⟨i, hi⟩ with
        | mk cb ca cs => exact ⟨cb, ca, cs, rfl⟩
      rw [hcs] at hshape
      simp only [AEGraph.num_subgraphs, AEGraph.num_atoms, AEGraph.subgraphs,
        AEGraph.atoms] at hshape
      obtain ⟨aux, hcs2⟩ : ∃ aux, cs = [aux] := by
        cases cs with
        | nil => simp at hshape
        | cons aux rest =>
          cases rest with
          | nil => exact ⟨aux, rfl⟩
          | cons x xs => simp at hshape
      subst hcs2
      show double_cut_helper (AEGraph.mk b a s) [i] = _
      simp only [double_cut_helper, dif_pos hi, hcs]
      simp only [spliceAt, AEGraph.is_SA, AEGraph.atoms, AEGraph.subgraphs,
        hget, hcs]
      rw [List.eraseIdx_append_of_lt_length hi]
      rfl
  | cons j pre2 ih =>
    cases g with
    | mk b a s =>
      have hj : j < s.length := by
        by_contra hj
        simp [descend, hj] at hdesc
      have hdesc2 : descend (s.get ⟨j, hj⟩) pre2 = some n := by
        simpa [descend, hj] using hdesc
      have ih2 := ih (s.get ⟨j, hj⟩) hdesc2
      obtain ⟨q, qs, hq⟩ : ∃ q qs, pre2 ++ [i] = q :: qs := by
        cases hpq : pre2 ++ [i] with
        | nil => exact absurd hpq (by simp)
        | cons q qs => exact ⟨q, qs, rfl⟩
      have ih3 : double_cut_helper (s.get ⟨j, hj⟩) (q :: qs)
          = some (spliceAt (s.get ⟨j, hj⟩) (q :: qs)) := by
        rw [← hq]
        exact ih2
      have hgetD : s.getD j dfltG = s.get ⟨j, hj⟩ := by
        simp [List.getD_eq_getElem, hj]
      show double_cut_helper (AEGraph.mk b a s) (j :: (pre2 ++ [i]))
        = some (spliceAt (AEGraph.mk b a s) (j :: (pre2 ++ [i])))
      rw [hq]
      simp only [double_cut_helper, dif_pos hj, ih3, spliceAt,
        AEGraph.is_SA_mk, AEGraph.atoms_mk, AEGraph.subgraphs_mk, hgetD]

/-- C2: at any address that resolves to a child of double-cut shape (a
node with exactly one subgraph and no atoms), `double_cut` succeeds and
returns the graph in which that outer cut is removed from its parent's
child sequence and the grandchild's atoms and children are merged
directly into the parent's atom and child sequences (`spliceAt`, the
spec-side description of `remove_double_cut`). -/
theorem C2_double_cut_splices (g n : AEGraph) (pre : List Nat) (i : Nat)
    (hdesc : descend g pre = some n)
    (hi : i < n.num_subgraphs)
    (hshape : (n.subgraphs.getD i dfltG).num_subgraphs = 1 ∧
      (n.subgraphs.getD i dfltG).num_atoms = 0) :
    g.double_cut (pre ++ [i]) = some (spliceAt g (pre ++ [i])) :=
  double_cut_splices g n pre i hdesc hi hshape

theorem C2_double_cut_splices_witness :
    (descend (.mk true [] [.mk false [] [.mk false [['C']] []]]) []
      = some (.mk true [] [.mk false [] [.mk false [['C']] []]])) ∧
    (AEGraph.ofString "([[C]])".toList
      = some (.mk true [] [.mk false [] [.mk false [['C']] []]])) ∧
    (possible_double_cuts (.mk true [] [.mk false [] [.mk false [['C']] []]])
      = [[0]]) ∧
    ((AEGraph.mk true [] [.mk false [] [.mk false [['C']] []]]).double_cut
      ([] ++ [0])
      = some (spliceAt (.mk true [] [.mk false [] [.mk false [['C']] []]])
          ([] ++ [0]))) ∧
    ((AEGraph.mk true [] [.mk false [] [.mk false [['C']] []]]).double_cut
      [0] = some (.mk true [['C']] [])) ∧
    (AEGraph.ofString "(C)".toList = some (.mk true [['C']] [])) := by
  refine ⟨by decide, by decide, by decide, ?_, by decide, by decide⟩
  exact C2_double_cut_splices
    (.mk true [] [.mk false [] [.mk false [['C']] []]])
    (.mk true [] [.mk false [] [.mk false [['C']] []]])
    [] 0 (by decide) (by decide) (by decide)

/-! ## Address machinery for the enumerator claims (C1, C6, C7) -/

theorem descend_cons_getD (g : AEGraph) (j : Nat) (rest : List Nat)
    (hj : j < g.num_subgraphs) :
    descend g (j :: rest) = descend (g.subgraphs.getD j dfltG) rest := by
  cases g with
  | mk b a s =>
    simp only [AEGraph.num_subgraphs, AEGraph.subgraphs] at hj ⊢
    simp only [descend, AEGraph.subgraphs, dif_pos hj,
      List.getD_eq_getElem _ _ hj, List.get_eq_getElem]

theorem erase_helper_some (g n : AEGraph) (pre : List Nat) (i : Nat)
    (hdesc : descend g pre = some n) (hi : i < n.size) :
    ∃ r, erase_helper g (pre ++ [i]) = some r := by
  induction pre generalizing g with
  | nil =>
    have hn : g = n := by simpa [descend] using hdesc
    subst hn
    cases g with
    | mk b a s =>
      simp only [AEGraph.size_mk] at hi
      simp only [List.nil_append]
      by_cases hsl : s.length ≤ i
      · exact ⟨.mk b (a.eraseIdx (i - s.length)) s, by
          simp only [erase_helper, if_pos hsl,
            if_pos (by omega : i - s.length < a.length)]⟩
      · exact ⟨.mk b a (s.eraseIdx i), by
          simp only [erase_helper, if_neg hsl]⟩
  | cons j pre2 ih =>
    cases g with
    | mk b a s =>
      have hj : j < s.length := by
        by_contra hj
        simp [descend, hj] at hdesc
      have hdesc2 : descend (s.get ⟨j, hj⟩) pre2 = some n := by
        simpa [descend, hj] using hdesc
      obtain ⟨r, hr⟩ := ih (s.get ⟨j, hj⟩) hdesc2
      obtain ⟨q, qs, hq⟩ : ∃ q qs, pre2 ++ [i] = q :: qs := by
        cases hpq : pre2 ++ [i] with
        | nil => exact absurd hpq (by simp)
        | cons q qs => exact ⟨q, qs, rfl⟩
      refine ⟨.mk b a (s.set j r), ?_⟩
      show erase_helper (AEGraph.mk b a s) (j :: (pre2 ++ [i])) = _
      rw [hq] at hr ⊢
      simp only [erase_helper, dif_pos hj, hr]

theorem resolveElem_append (g n : AEGraph) (pre : List Nat) (i : Nat)
    (hdesc : descend g pre = some n) :
    resolveElem g (pre ++ [i]) =
      if i < n.num_subgraphs then some (Sum.inl (n.subgraphs.getD i dfltG))
      else if i < n.size then
        some (Sum.inr (n.atoms.getD (i - n.num_subgraphs) []))
      else none := by
  induction pre generalizing g with
  | nil =>
    have hn : g = n := by simpa [descend] using hdesc
    subst hn
    simp only [List.nil_append]
    rfl
  | cons j pre2 ih =>
    cases g with
    | mk b a s =>
      have hj : j < s.length := by
        by_contra hj
        simp [descend, hj] at hdesc
      have hdesc2 : descend (s.get ⟨j, hj⟩) pre2 = some n := by
        simpa [descend, hj] using hdesc
      have ih2 := ih (s.get ⟨j, hj⟩) hdesc2
      obtain ⟨q, qs, hq⟩ : ∃ q qs, pre2 ++ [i] = q :: qs := by
        cases hpq : pre2 ++ [i] with
        | nil => exact absurd hpq (by simp)
        | cons q qs => exact ⟨q, qs, rfl⟩
      show resolveElem (AEGraph.mk b a s) (j :: (pre2 ++ [i])) = _
      rw [hq] at ih2 ⊢
      simp only [resolveElem, AEGraph.subgraphs, dif_pos hj,
        List.get_eq_getElem] at ih2 ⊢
      exact ih2

theorem pdcL_elim : ∀ (gs : List AEGraph) (i0 : Nat) (a : List Nat),
    a ∈ pdcL gs i0 →
    ∃ k, k < gs.length ∧
      ((a = [i0 + k] ∧ (gs.getD k dfltG).num_subgraphs = 1 ∧
        (gs.getD k dfltG).num_atoms = 0) ∨
       ∃ r ∈ possible_double_cuts (gs.getD k dfltG), a = (i0 + k) :: r) := by
  intro gs
  induction gs with
  | nil => intro i0 a h; simp [pdcL] at h
  | cons g rest ih =>
    intro i0 a h
    simp only [pdcL, List.mem_append] at h
    rcases h with (h | h) | h
    · by_cases hc : g.num_subgraphs = 1 ∧ g.num_atoms = 0
      · rw [if_pos hc] at h
        simp only [List.mem_singleton] at h
        subst h
        exact ⟨0, by simp, Or.inl ⟨by simp, by simpa using hc.1,
          by simpa using hc.2⟩⟩
      · rw [if_neg hc] at h
        simp at h
    · simp only [List.mem_map] at h
      obtain ⟨r, hr, rfl⟩ := h
      exact ⟨0, by simp, Or.inr ⟨r, by simpa using hr, by simp⟩⟩
    · obtain ⟨k, hk, hcase⟩ := ih (i0 + 1) a h
      refine ⟨k + 1, by simpa using hk, ?_⟩
      rcases hcase with ⟨h1, h2, h3⟩ | ⟨r, hr, h1⟩
      · refine Or.inl ⟨?_, by simpa using h2, by simpa using h3⟩
        rw [h1]
        congr 1
        omega
      · refine Or.inr ⟨r, by simpa using hr, ?_⟩
        rw [h1]
        congr 1
        omega

theorem pdc_elim : ∀ (g : AEGraph) (a : List Nat),
    a ∈ possible_double_cuts g →
    ∃ pre i n, a = pre ++ [i] ∧ descend g pre = some n ∧
      i < n.num_subgraphs ∧
      (n.subgraphs.getD i dfltG).num_subgraphs = 1 ∧
      (n.subgraphs.getD i dfltG).num_atoms = 0 := by
  intro g
  induction g using AEGraph.myInd with
  | h b at2 s ih =>
    intro a h
    rw [show possible_double_cuts (.mk b at2 s) = pdcL s 0 from rfl] at h
    obtain ⟨k, hk, hcase⟩ := pdcL_elim s 0 a h
    rcases hcase with ⟨h1, h2, h3⟩ | ⟨r, hr, h1⟩
    · refine ⟨[], k, .mk b at2 s, by simpa using h1, rfl, by simpa using hk,
        ?_, ?_⟩
      · simpa using h2
      · simpa using h3
    · have hmem : s.getD k dfltG ∈ s := by
        rw [List.getD_eq_getElem _ _ hk]
        exact List.getElem_mem hk
      obtain ⟨pre, i, n, hre, hdesc, hlt, hs1, hs2⟩ :=
        ih (s.getD k dfltG) hmem r hr
      refine ⟨k :: pre, i, n, ?_, ?_, hlt, hs1, hs2⟩
      · rw [h1, hre]
        simp
      · rw [descend_cons_getD _ k pre (by simpa using hk)]
        exact hdesc

theorem peL_elim : ∀ (gs : List AEGraph) (lvl : Int) (emit : Bool)
    (i0 : Nat) (a : List Nat),
    a ∈ peL gs lvl emit i0 →
    ∃ k, k < gs.length ∧
      ((emit = true ∧ a = [i0 + k]) ∨
       ∃ r ∈ possible_erasures (gs.getD k dfltG) (lvl + 1),
         a = (i0 + k) :: r) := by
  intro gs
  induction gs with
  | nil => intro lvl emit i0 a h; simp [peL] at h
  | cons g rest ih =>
    intro lvl emit i0 a h
    simp only [peL, List.mem_append] at h
    rcases h with (h | h) | h
    · cases emit with
      | false => simp at h
      | true =>
        have h2 : a = [i0] := by simpa using h
        subst h2
        exact ⟨0, by simp, Or.inl ⟨rfl, by simp⟩⟩
    · simp only [List.mem_map] at h
      obtain ⟨r, hr, rfl⟩ := h
      exact ⟨0, by simp, Or.inr ⟨r, by simpa using hr, by simp⟩⟩
    · obtain ⟨k, hk, hcase⟩ := ih lvl emit (i0 + 1) a h
      refine ⟨k + 1, by simpa using hk, ?_⟩
      rcases hcase with ⟨h1, h2⟩ | ⟨r, hr, h1⟩
      · refine Or.inl ⟨h1, ?_⟩
        rw [h2, show i0 + 1 + k = i0 + (k + 1) from by omega]
      · refine Or.inr ⟨r, by simpa using hr, ?_⟩
        rw [h1, show i0 + 1 + k = i0 + (k + 1) from by omega]

theorem pe_unfold (b : Bool) (at2 : List (List Char)) (s : List AEGraph)
    (lvl : Int) :
    possible_erasures (.mk b at2 s) lvl =
      peL s lvl (decide (lvl % 2 ≠ 0 ∧
        ¬(lvl ≠ -1 ∧ ((s.length = 0 ∧ at2.length = 1) ∨
          (s.length = 1 ∧ at2.length = 0))))) 0
      ++ (if (lvl % 2 ≠ 0 ∧
          ¬(lvl ≠ -1 ∧ ((s.length = 0 ∧ at2.length = 1) ∨
            (s.length = 1 ∧ at2.length = 0)))) then
          (List.range' s.length at2.length).map (fun i => [i]) else []) :=
  rfl

theorem pe_elim : ∀ (g : AEGraph) (lvl : Int) (a : List Nat), 0 ≤ lvl →
    a ∈ possible_erasures g lvl →
    ∃ pre i n, a = pre ++ [i] ∧ descend g pre = some n ∧
      (lvl + pre.length) % 2 = 1 ∧ i < n.size ∧
      ¬(n.num_subgraphs = 1 ∧ n.num_atoms = 0) ∧
      ¬(n.num_subgraphs = 0 ∧ n.num_atoms = 1) := by
  intro g
  induction g using AEGraph.myInd with
  | h b at2 s ih =>
    intro lvl a hlvl h
    rw [pe_unfold] at h
    rcases List.mem_append.mp h with h | h
    · obtain ⟨k, hk, hcase⟩ := peL_elim s lvl _ 0 a h
      rcases hcase with ⟨hemit, h1⟩ | ⟨r, hr, h1⟩
      · have hp := of_decide_eq_true hemit
        obtain ⟨hp1, hp2⟩ := hp
        have hsing : ¬((s.length = 0 ∧ at2.length = 1) ∨
            (s.length = 1 ∧ at2.length = 0)) := by
          intro hx
          exact hp2 ⟨by omega, hx⟩
        refine ⟨[], k, .mk b at2 s, by simpa using h1, rfl, ?_, ?_, ?_, ?_⟩
        · simpa using (by omega : (lvl + 0) % 2 = 1)
        · simp only [AEGraph.size_mk]
          omega
        · simp only [AEGraph.num_subgraphs_mk, AEGraph.num_atoms_mk]
          tauto
        · simp only [AEGraph.num_subgraphs_mk, AEGraph.num_atoms_mk]
          tauto
      · have hmem : s.getD k dfltG ∈ s := by
          rw [List.getD_eq_getElem _ _ hk]
          exact List.getElem_mem hk
        obtain ⟨pre, i, n, hre, hdesc, hmod, hsz, h5, h6⟩ :=
          ih _ hmem (lvl + 1) r (by omega) hr
        refine ⟨k :: pre, i, n, by rw [h1, hre]; simp, ?_, ?_, hsz, h5, h6⟩
        · rw [descend_cons_getD _ k pre (by simpa using hk)]
          exact hdesc
        · simp only [List.length_cons]
          push_cast
          push_cast at hmod
          omega
    · by_cases hp : (lvl % 2 ≠ 0 ∧
          ¬(lvl ≠ -1 ∧ ((s.length = 0 ∧ at2.length = 1) ∨
            (s.length = 1 ∧ at2.length = 0))))
      · rw [if_pos hp] at h
        simp only [List.mem_map] at h
        obtain ⟨i, hi, rfl⟩ := h
        have hi2 := List.mem_range'_1.mp hi
        have hsing : ¬((s.length = 0 ∧ at2.length = 1) ∨
            (s.length = 1 ∧ at2.length = 0)) := by
          intro hx
          exact hp.2 ⟨by omega, hx⟩
        refine ⟨[], i, .mk b at2 s, by simp, rfl, ?_, ?_, ?_, ?_⟩
        · have hp1 := hp.1
          simpa using (by omega : (lvl + 0) % 2 = 1)
        · simp only [AEGraph.size_mk]
          omega
        · simp only [AEGraph.num_subgraphs_mk, AEGraph.num_atoms_mk]
          tauto
        · simp only [AEGraph.num_subgraphs_mk, AEGraph.num_atoms_mk]
          tauto
      · rw [if_neg hp] at h
        simp at h

/-! ## Claim C6: erasure candidates sit at odd levels -/

/-- C6: every address produced by `possible_erasures g 0` decomposes as
`pre ++ [i]` where the descent along `pre` reaches a node at odd nesting
level (`pre.length` is odd — so never the root, level 0, nor any even
level), the final index is within that node's unified index space, and
the node is not a one-element node (its only subgraph with no atoms, or
its only atom with no subgraphs): the sole content of a singleton node
is never a candidate. -/
theorem C6_erasures_at_odd_levels (g : AEGraph) (a : List Nat)
    (h : a ∈ possible_erasures g 0) :
    ∃ pre i n, a = pre ++ [i] ∧ descend g pre = some n ∧
      pre.length % 2 = 1 ∧ i < n.size ∧
      ¬(n.num_subgraphs = 1 ∧ n.num_atoms = 0) ∧
      ¬(n.num_subgraphs = 0 ∧ n.num_atoms = 1) := by
  obtain ⟨pre, i, n, h1, h2, h3, h4, h5, h6⟩ :=
    pe_elim g 0 a (le_refl 0) h
  refine ⟨pre, i, n, h1, h2, ?_, h4, h5, h6⟩
  omega

theorem C6_erasures_at_odd_levels_witness :
    [0, 0] ∈ possible_erasures
      (.mk true [] [.mk false [['A'], ['B']] []]) 0 ∧
    (∃ pre i n, ([0, 0] : List Nat) = pre ++ [i] ∧
      descend (.mk true [] [.mk false [['A'], ['B']] []]) pre = some n ∧
      pre.length % 2 = 1 ∧ i < n.size ∧
      ¬(n.num_subgraphs = 1 ∧ n.num_atoms = 0) ∧
      ¬(n.num_subgraphs = 0 ∧ n.num_atoms = 1)) :=
  ⟨by decide, C6_erasures_at_odd_levels
    (.mk true [] [.mk false [['A'], ['B']] []]) [0, 0] (by decide)⟩

theorem gptGL_mem : ∀ (gs : List AEGraph) (t : AEGraph) (sz i0 : Nat)
    (a : List Nat),
    a ∈ gptGL gs t sz i0 ↔
      ∃ k, k < gs.length ∧
        ((reprG (gs.getD k dfltG) = reprG t ∧ 1 < sz ∧ a = [i0 + k]) ∨
         (¬(reprG (gs.getD k dfltG) = reprG t ∧ 1 < sz) ∧
          ∃ r ∈ gptG (gs.getD k dfltG) t, a = (i0 + k) :: r)) := by
  intro gs t sz
  induction gs with
  | nil => intro i0 a; simp [gptGL]
  | cons g rest ih =>
    intro i0 a
    simp only [gptGL, List.mem_append]
    constructor
    · rintro (h | h)
      · by_cases hc : reprG g = reprG t ∧ 1 < sz
        · rw [if_pos hc] at h
          have h2 : a = [i0] := by simpa using h
          exact ⟨0, by simp, Or.inl ⟨by simpa using hc.1, hc.2,
            by simp [h2]⟩⟩
        · rw [if_neg hc] at h
          simp only [List.mem_map] at h
          obtain ⟨r, hr, rfl⟩ := h
          exact ⟨0, by simp, Or.inr ⟨by simpa using hc, r,
            by simpa using hr, by simp⟩⟩
      · obtain ⟨k, hk, hcase⟩ := (ih (i0 + 1) a).mp h
        refine ⟨k + 1, by simpa using hk, ?_⟩
        rcases hcase with ⟨h1, h2, h3⟩ | ⟨h1, r, hr, h3⟩
        · exact Or.inl ⟨by simpa using h1, h2,
            by rw [h3, show i0 + 1 + k = i0 + (k + 1) from by omega]⟩
        · exact Or.inr ⟨by simpa using h1, r, by simpa using hr,
            by rw [h3, show i0 + 1 + k = i0 + (k + 1) from by omega]⟩
    · rintro ⟨k, hk, hcase⟩
      cases k with
      | zero =>
        rcases hcase with ⟨h1, h2, h3⟩ | ⟨h1, r, hr, h3⟩
        · left
          rw [if_pos ⟨by simpa using h1, h2⟩]
          simp [h3]
        · left
          rw [if_neg (by simpa using h1)]
          simp only [List.mem_map]
          exact ⟨r, by simpa using hr, by simp [h3]⟩
      | succ k2 =>
        right
        apply (ih (i0 + 1) a).mpr
        refine ⟨k2, by simpa using hk, ?_⟩
        rcases hcase with ⟨h1, h2, h3⟩ | ⟨h1, r, hr, h3⟩
        · exact Or.inl ⟨by simpa using h1, h2,
            by rw [h3, show i0 + (k2 + 1) = i0 + 1 + k2 from by omega]⟩
        · exact Or.inr ⟨by simpa using h1, r, by simpa using hr,
            by rw [h3, show i0 + (k2 + 1) = i0 + 1 + k2 from by omega]⟩

theorem gptG_unfold (b : Bool) (at2 : List (List Char)) (s : List AEGraph)
    (t : AEGraph) :
    gptG (.mk b at2 s) t = gptGL s t ((AEGraph.mk b at2 s).size) 0 := rfl

theorem gptG_elim : ∀ (g t : AEGraph) (a : List Nat), a ∈ gptG g t →
    ∃ pre i n, a = pre ++ [i] ∧ descend g pre = some n ∧
      i < n.num_subgraphs ∧
      reprG (n.subgraphs.getD i dfltG) = reprG t := by
  intro g
  induction g using AEGraph.myInd with
  | h b at2 s ih =>
    intro t a h
    rw [gptG_unfold] at h
    obtain ⟨k, hk, hcase⟩ := (gptGL_mem s t _ 0 a).mp h
    rcases hcase with ⟨h1, h2, h3⟩ | ⟨h1, r, hr, h3⟩
    · exact ⟨[], k, .mk b at2 s, by simp [h3], rfl, by simpa using hk,
        by simpa using h1⟩
    · have hmem : s.getD k dfltG ∈ s := by
        rw [List.getD_eq_getElem _ _ hk]
        exact List.getElem_mem hk
      obtain ⟨pre, i, n, hre, hdesc, hlt, heq⟩ := ih _ hmem t r hr
      refine ⟨k :: pre, i, n, by rw [h3, hre]; simp, ?_, hlt, heq⟩
      rw [descend_cons_getD _ k pre (by simpa using hk)]
      exact hdesc

theorem gptAL_elim : ∀ (gs : List AEGraph) (t : List Char) (i0 : Nat)
    (a : List Nat),
    a ∈ gptAL gs t i0 →
    ∃ k, k < gs.length ∧ ∃ r ∈ gptA (gs.getD k dfltG) t,
      a = (i0 + k) :: r := by
  intro gs t
  induction gs with
  | nil => intro i0 a h; simp [gptAL] at h
  | cons g rest ih =>
    intro i0 a h
    simp only [gptAL, List.mem_append] at h
    rcases h with h | h
    · by_cases hc : containsA g t = true
      · rw [if_pos hc] at h
        simp only [List.mem_map] at h
        obtain ⟨r, hr, rfl⟩ := h
        exact ⟨0, by simp, r, by simpa using hr, by simp⟩
      · rw [if_neg hc] at h
        simp at h
    · obtain ⟨k, hk, r, hr, h1⟩ := ih (i0 + 1) a h
      exact ⟨k + 1, by simpa using hk, r, by simpa using hr,
        by rw [h1, show i0 + 1 + k = i0 + (k + 1) from by omega]⟩

theorem gptA_unfold (b : Bool) (at2 : List (List Char)) (s : List AEGraph)
    (t : List Char) :
    gptA (.mk b at2 s) t =
      ((List.range at2.length).filterMap fun i =>
        if at2.getD i [] = t ∧ 1 < (AEGraph.mk b at2 s).size then
          some [i + s.length]
        else none)
      ++ gptAL s t 0 := rfl

theorem gptA_elim : ∀ (g : AEGraph) (t : List Char) (a : List Nat),
    a ∈ gptA g t →
    ∃ pre i n, a = pre ++ [i] ∧ descend g pre = some n ∧
      n.num_subgraphs ≤ i ∧ i < n.size ∧
      n.atoms.getD (i - n.num_subgraphs) [] = t := by
  intro g
  induction g using AEGraph.myInd with
  | h b at2 s ih =>
    intro t a h
    rw [gptA_unfold] at h
    rcases List.mem_append.mp h with h | h
    · simp only [List.mem_filterMap, List.mem_range] at h
      obtain ⟨i, hi, hf⟩ := h
      by_cases hc : at2.getD i [] = t ∧ 1 < (AEGraph.mk b at2 s).size
      · rw [if_pos hc] at hf
        have ha : a = [i + s.length] := by
          simpa using hf.symm
        refine ⟨[], i + s.length, .mk b at2 s, by simp [ha], rfl,
          by simp, ?_, ?_⟩
        · simp only [AEGraph.size_mk]
          omega
        · simpa using hc.1
      · rw [if_neg hc] at hf
        exact absurd hf (by simp)
    · obtain ⟨k, hk, r, hr, h1⟩ := gptAL_elim s t 0 a h
      have hmem : s.getD k dfltG ∈ s := by
        rw [List.getD_eq_getElem _ _ hk]
        exact List.getElem_mem hk
      obtain ⟨pre, i, n, hre, hdesc, hge, hlt, heq⟩ := ih _ hmem t r hr
      refine ⟨k :: pre, i, n, by rw [h1, hre]; simp, ?_, hge, hlt, heq⟩
      rw [descend_cons_getD _ k pre (by simpa using hk)]
      exact hdesc

theorem pdi_elim (g : AEGraph) (a : List Nat)
    (h : a ∈ possible_deiterations g) :
    ∃ j r, a = j :: r ∧ j < g.num_subgraphs ∧
      ((∃ i, i < g.num_subgraphs ∧ i ≠ j ∧
        r ∈ gptG (g.subgraphs.getD j dfltG) (g.subgraphs.getD i dfltG)) ∨
       (∃ i, i < g.num_atoms ∧
        r ∈ gptA (g.subgraphs.getD j dfltG) (g.atoms.getD i []))) := by
  simp only [possible_deiterations, List.mem_append, List.mem_flatMap,
    List.mem_range] at h
  rcases h with ⟨i, hi, j, hj, hr⟩ | ⟨i, hi, j, hj, hr⟩
  · by_cases hij : i ≠ j
    · rw [if_pos hij] at hr
      obtain ⟨r, hr2, rfl⟩ := List.mem_map.mp hr
      exact ⟨j, r, rfl, hj, Or.inl ⟨i, hi, hij, hr2⟩⟩
    · rw [if_neg hij] at hr
      simp at hr
  · obtain ⟨r, hr2, rfl⟩ := List.mem_map.mp hr
    exact ⟨j, r, rfl, hj, Or.inr ⟨i, hi, hr2⟩⟩

/-! ## Claim C1: enumerator-produced addresses never fail in the paired
applier -/

/-- C1: every address produced by an enumerator succeeds in its paired
applier — `double_cut` on `possible_double_cuts` addresses, `erase` on
`possible_erasures 0` addresses, `deiterate` on
`possible_deiterations` addresses — every index used to descend or
delete is in range (a failing index access is `none` in this model). -/
theorem C1_enumerated_addresses_apply (g : AEGraph) (a : List Nat) :
    (a ∈ possible_double_cuts g → ∃ r, g.double_cut a = some r) ∧
    (a ∈ possible_erasures g 0 → ∃ r, g.erase a = some r) ∧
    (a ∈ possible_deiterations g → ∃ r, g.deiterate a = some r) := by
  refine ⟨?_, ?_, ?_⟩
  · intro h
    obtain ⟨pre, i, n, rfl, hdesc, hlt, hs1, hs2⟩ := pdc_elim g a h
    exact ⟨_, double_cut_splices g n pre i hdesc hlt ⟨hs1, hs2⟩⟩
  · intro h
    obtain ⟨pre, i, n, rfl, hdesc, _, hsz, _, _⟩ :=
      pe_elim g 0 a (le_refl 0) h
    exact erase_helper_some g n pre i hdesc hsz
  · intro h
    obtain ⟨j, r, rfl, hj, hcase⟩ := pdi_elim g a h
    have hdecomp : ∃ pre i n, r = pre ++ [i] ∧
        descend (g.subgraphs.getD j dfltG) pre = some n ∧ i < n.size := by
      rcases hcase with ⟨i, _, _, hr⟩ | ⟨i, _, hr⟩
      · obtain ⟨pre, i2, n, hre, hdesc, hlt, _⟩ := gptG_elim _ _ r hr
        refine ⟨pre, i2, n, hre, hdesc, ?_⟩
        have h2 : n.size = n.num_atoms + n.num_subgraphs := rfl
        omega
      · obtain ⟨pre, i2, n, hre, hdesc, _, hlt, _⟩ := gptA_elim _ _ r hr
        exact ⟨pre, i2, n, hre, hdesc, hlt⟩
    obtain ⟨pre, i, n, hre, hdesc, hsz⟩ := hdecomp
    have hdesc2 : descend g (j :: pre) = some n := by
      rw [descend_cons_getD _ j pre hj]
      exact hdesc
    obtain ⟨res, hres⟩ := erase_helper_some g n (j :: pre) i hdesc2 hsz
    refine ⟨res, ?_⟩
    rw [show (j :: r) = (j :: pre) ++ [i] from by rw [hre]; simp]
    rw [show AEGraph.deiterate g ((j :: pre) ++ [i])
      = erase_helper g ((j :: pre) ++ [i]) from
      deiterate_helper_eq_erase_helper _ g]
    exact hres

theorem C1_enumerated_addresses_apply_witness :
    ([0] ∈ possible_double_cuts
      (.mk true [] [.mk false [] [.mk false [['C']] []]]) ∧
     ∃ r, (AEGraph.mk true [] [.mk false [] [.mk false [['C']] []]]).double_cut
       [0] = some r) ∧
    ([0, 0] ∈ possible_erasures
      (.mk true [] [.mk false [['A'], ['B']] []]) 0 ∧
     ∃ r, (AEGraph.mk true [] [.mk false [['A'], ['B']] []]).erase
       [0, 0] = some r) ∧
    ([0, 0] ∈ possible_deiterations
      (.mk true [['A']] [.mk false [['A'], ['B']] []]) ∧
     ∃ r, (AEGraph.mk true [['A']] [.mk false [['A'], ['B']] []]).deiterate
       [0, 0] = some r) :=
  ⟨⟨by decide, (C1_enumerated_addresses_apply
      (.mk true [] [.mk false [] [.mk false [['C']] []]]) [0]).1
      (by decide)⟩,
   ⟨by decide, (C1_enumerated_addresses_apply
      (.mk true [] [.mk false [['A'], ['B']] []]) [0, 0]).2.1
      (by decide)⟩,
   ⟨by decide, (C1_enumerated_addresses_apply
      (.mk true [['A']] [.mk false [['A'], ['B']] []]) [0, 0]).2.2
      (by decide)⟩⟩

/-! ## Claim C7: deiteration targets match a dominator at the pairing
level -/

/-- C7: every address produced by `possible_deiterations g` starts with
a subgraph index `j` and resolves, inside subgraph `j`, to an element
that is structurally equal (equality of `repr` texts) to a sibling
subgraph of `g` other than `j` — a duplicated child found inside a
sibling — or is exactly an atom of `g` found inside subgraph `j`. -/
theorem C7_deiteration_dominators (g : AEGraph) (a : List Nat)
    (h : a ∈ possible_deiterations g) :
    ∃ j r, a = j :: r ∧ j < g.num_subgraphs ∧
      ((∃ c, resolveElem g a = some (Sum.inl c) ∧
        ∃ i, i < g.num_subgraphs ∧ i ≠ j ∧
          reprG c = reprG (g.subgraphs.getD i dfltG)) ∨
       (∃ t, resolveElem g a = some (Sum.inr t) ∧ t ∈ g.atoms)) := by
  obtain ⟨j, r, rfl, hj, hcase⟩ := pdi_elim g a h
  refine ⟨j, r, rfl, hj, ?_⟩
  rcases hcase with ⟨i, hi, hij, hr⟩ | ⟨i, hi, hr⟩
  · obtain ⟨pre, i2, n, hre, hdesc, hlt, heq⟩ := gptG_elim _ _ r hr
    left
    refine ⟨n.subgraphs.getD i2 dfltG, ?_, i, hi, hij, ?_⟩
    · rw [hre, show j :: (pre ++ [i2]) = (j :: pre) ++ [i2] from by simp]
      rw [resolveElem_append g n (j :: pre) i2
        (by rw [descend_cons_getD _ j pre hj]; exact hdesc)]
      rw [if_pos hlt]
    · rw [heq]
  · obtain ⟨pre, i2, n, hre, hdesc, hge, hlt, heq⟩ := gptA_elim _ _ r hr
    right
    refine ⟨g.atoms.getD i [], ?_, ?_⟩
    · rw [hre, show j :: (pre ++ [i2]) = (j :: pre) ++ [i2] from by simp]
      rw [resolveElem_append g n (j :: pre) i2
        (by rw [descend_cons_getD _ j pre hj]; exact hdesc)]
      rw [if_neg (by omega), if_pos hlt, heq]
    · have hi2 : i < g.atoms.length := hi
      rw [List.getD_eq_getElem _ _ hi2]
      exact List.getElem_mem hi2

theorem C7_deiteration_dominators_witness :
    [0, 0] ∈ possible_deiterations
      (.mk true [['A']] [.mk false [['A'], ['B']] []]) ∧
    (∃ j r, ([0, 0] : List Nat) = j :: r ∧
      j < (AEGraph.mk true [['A']] [.mk false [['A'], ['B']] []]).num_subgraphs ∧
      ((∃ c, resolveElem
          (.mk true [['A']] [.mk false [['A'], ['B']] []]) [0, 0]
          = some (Sum.inl c) ∧
        ∃ i, i < (AEGraph.mk true [['A']]
            [.mk false [['A'], ['B']] []]).num_subgraphs ∧ i ≠ j ∧
          reprG c = reprG ((AEGraph.mk true [['A']]
            [.mk false [['A'], ['B']] []]).subgraphs.getD i dfltG)) ∨
       (∃ t, resolveElem
          (.mk true [['A']] [.mk false [['A'], ['B']] []]) [0, 0]
          = some (Sum.inr t) ∧
        t ∈ (AEGraph.mk true [['A']]
          [.mk false [['A'], ['B']] []]).atoms))) :=
  ⟨by decide, C7_deiteration_dominators
    (.mk true [['A']] [.mk false [['A'], ['B']] []]) [0, 0] (by decide)⟩

/-! ## Claim C10: the subgraph overload of `get_paths_to` never reports
nested occurrences -/

theorem gptG_mem_cases (g t : AEGraph) (a : List Nat) (h : a ∈ gptG g t) :
    ∃ k, k < g.num_subgraphs ∧
      ((reprG (g.subgraphs.getD k dfltG) = reprG t ∧ 1 < g.size ∧
        a = [k]) ∨
       (¬(reprG (g.subgraphs.getD k dfltG) = reprG t ∧ 1 < g.size) ∧
        ∃ r ∈ gptG (g.subgraphs.getD k dfltG) t, a = k :: r)) := by
  cases g with
  | mk b at2 s =>
    rw [gptG_unfold] at h
    obtain ⟨k, hk, hc⟩ := (gptGL_mem s t _ 0 a).mp h
    refine ⟨k, by simpa using hk, ?_⟩
    simpa using hc

theorem gptG_mem_intro (g t : AEGraph) (k : Nat)
    (hk : k < g.num_subgraphs) :
    ((reprG (g.subgraphs.getD k dfltG) = reprG t ∧ 1 < g.size) →
      [k] ∈ gptG g t) ∧
    (¬(reprG (g.subgraphs.getD k dfltG) = reprG t ∧ 1 < g.size) →
      ∀ r ∈ gptG (g.subgraphs.getD k dfltG) t, k :: r ∈ gptG g t) := by
  cases g with
  | mk b at2 s =>
    constructor
    · intro hcond
      rw [gptG_unfold]
      refine (gptGL_mem s t _ 0 [k]).mpr ⟨k, by simpa using hk, ?_⟩
      exact Or.inl ⟨by simpa using hcond.1, hcond.2, by simp⟩
    · intro hcond r hr
      rw [gptG_unfold]
      refine (gptGL_mem s t _ 0 (k :: r)).mpr ⟨k, by simpa using hk, ?_⟩
      exact Or.inr ⟨by simpa using hcond, r, by simpa using hr, by simp⟩

theorem gptG_ne_nil (g t : AEGraph) : [] ∉ gptG g t := by
  intro h
  obtain ⟨k, _, hc⟩ := gptG_mem_cases g t [] h
  rcases hc with ⟨_, _, h1⟩ | ⟨_, r, _, h1⟩ <;> exact absurd h1 (by simp)

theorem gptG_no_strict_prefix : ∀ (g t : AEGraph) (p q : List Nat),
    p ∈ gptG g t → q ∈ gptG g t → p ≠ q → ¬∃ u, p ++ u = q := by
  intro g
  induction g using AEGraph.myInd with
  | h b at2 s ih =>
    rintro t p q hp hq hne ⟨u, hu⟩
    obtain ⟨k1, hk1, hc1⟩ := gptG_mem_cases _ t p hp
    obtain ⟨k2, hk2, hc2⟩ := gptG_mem_cases _ t q hq
    rcases hc1 with ⟨m1, s1, hp1⟩ | ⟨nm1, r1, hr1, hp1⟩ <;>
      rcases hc2 with ⟨m2, s2, hp2⟩ | ⟨nm2, r2, hr2, hp2⟩
    · subst hp1
      subst hp2
      simp only [List.cons_append, List.nil_append, List.cons.injEq] at hu
      exact hne (by rw [hu.1])
    · subst hp1
      subst hp2
      simp only [List.cons_append, List.nil_append, List.cons.injEq] at hu
      rw [hu.1] at m1
      exact nm2 ⟨m1, s1⟩
    · subst hp1
      subst hp2
      simp only [List.cons_append, List.cons.injEq] at hu
      have hr1nil : r1 = [] := by
        have h2 := hu.2
        rw [List.append_eq_nil] at h2
        exact h2.1
      subst hr1nil
      exact absurd hr1 (gptG_ne_nil _ _)
    · subst hp1
      subst hp2
      simp only [List.cons_append, List.cons.injEq] at hu
      obtain ⟨hkk, hu2⟩ := hu
      subst hkk
      by_cases hrr : r1 = r2
      · subst hrr
        exact hne rfl
      · have hmem : s.getD k1 dfltG ∈ s := by
          have hk1b : k1 < s.length := by simpa using hk1
          rw [List.getD_eq_getElem _ _ hk1b]
          exact List.getElem_mem hk1b
        exact ih _ hmem t r1 r2 hr1 hr2 hrr ⟨u, hu2⟩

/-- C10: the subgraph overload of `get_paths_to` never reports an
occurrence strictly inside another reported occurrence — no reported
address extends another reported address.  When a subgraph of a node of
size greater than 1 matches the target, exactly its one-entry address is
reported and its interior is not searched (any reported address starting
at that subgraph is the bare index).  When the node's size is 1, the
match itself is not reported, but the interior of the matching subgraph
is still searched and its finds are reported, prefixed. -/
theorem C10_get_paths_no_nesting (g t : AEGraph) :
    (∀ p ∈ gptG g t, ∀ q ∈ gptG g t, p ≠ q → ¬∃ u, p ++ u = q) ∧
    (∀ i, i < g.num_subgraphs →
      reprG (g.subgraphs.getD i dfltG) = reprG t → 1 < g.size →
      ([i] ∈ gptG g t ∧ ∀ r, (i :: r) ∈ gptG g t → r = [])) ∧
    (∀ i, i < g.num_subgraphs →
      reprG (g.subgraphs.getD i dfltG) = reprG t → g.size = 1 →
      ([i] ∉ gptG g t ∧
       ∀ r ∈ gptG (g.subgraphs.getD i dfltG) t, (i :: r) ∈ gptG g t)) := by
  refine ⟨?_, ?_, ?_⟩
  · intro p hp q hq hne
    exact gptG_no_strict_prefix g t p q hp hq hne
  · intro i hi hrep hsz
    constructor
    · exact (gptG_mem_intro g t i hi).1 ⟨hrep, hsz⟩
    · intro r hr
      obtain ⟨k, hk, hc⟩ := gptG_mem_cases g t (i :: r) hr
      rcases hc with ⟨_, _, h1⟩ | ⟨nm, r2, hr2, h1⟩
      · simp only [List.cons.injEq] at h1
        exact h1.2
      · simp only [List.cons.injEq] at h1
        obtain ⟨hik, _⟩ := h1
        subst hik
        exact absurd ⟨hrep, hsz⟩ nm
  · intro i hi hrep hsz
    constructor
    · intro hmem
      obtain ⟨k, hk, hc⟩ := gptG_mem_cases g t [i] hmem
      rcases hc with ⟨_, hgt, _⟩ | ⟨_, r2, hr2, h1⟩
      · omega
      · simp only [List.cons.injEq] at h1
        obtain ⟨_, hnil⟩ := h1
        rw [← hnil] at hr2
        exact gptG_ne_nil _ _ hr2
    · intro r hr
      refine (gptG_mem_intro g t i hi).2 ?_ r hr
      rintro ⟨_, h2⟩
      omega

theorem C10_get_paths_no_nesting_witness :
    (¬∃ u, ([0] : List Nat) ++ u = [1]) ∧
    ([0] ∈ gptG
      (.mk true [['B']] [.mk false [['A']] [], .mk false [['A']] []])
      (.mk false [['A']] []) ∧
     ∀ r, (0 :: r) ∈ gptG
      (.mk true [['B']] [.mk false [['A']] [], .mk false [['A']] []])
      (.mk false [['A']] []) → r = []) ∧
    ([0] ∉ gptG (.mk true [] [.mk false [['A']] []])
      (.mk false [['A']] []) ∧
     ∀ r ∈ gptG (.mk false [['A']] []) (.mk false [['A']] []),
      (0 :: r) ∈ gptG (.mk true [] [.mk false [['A']] []])
        (.mk false [['A']] [])) := by
  refine ⟨?_, ?_, ?_⟩
  · exact (C10_get_paths_no_nesting
      (.mk true [['B']] [.mk false [['A']] [], .mk false [['A']] []])
      (.mk false [['A']] [])).1 [0] (by decide) [1] (by decide) (by decide)
  · exact (C10_get_paths_no_nesting
      (.mk true [['B']] [.mk false [['A']] [], .mk false [['A']] []])
      (.mk false [['A']] [])).2.1 0 (by decide) (by decide) (by decide)
  · exact (C10_get_paths_no_nesting
      (.mk true [] [.mk false [['A']] []])
      (.mk false [['A']] [])).2.2 0 (by decide) (by decide) (by decide)

/-! ## Claim C3: round-trip — split/scan mechanics -/

theorem netd_nil (d : Int) : netd [] d = d := rfl

theorem netd_cons (c : Char) (s : List Char) (d : Int) :
    netd (c :: s) d = netd s (depthUpd c d) := rfl

theorem netd_append (x y : List Char) (d : Int) :
    netd (x ++ y) d = netd y (netd x d) := by
  simp [netd, List.foldl_append]

theorem scanOK_append (x y : List Char) : ∀ d : Int,
    scanOK (x ++ y) d ↔ scanOK x d ∧ scanOK y (netd x d) := by
  induction x with
  | nil => intro d; simp [scanOK, netd_nil]
  | cons c rest ih =>
    intro d
    simp only [List.cons_append, scanOK, netd_cons]
    show (¬(c = ',' ∧ d = 0) ∧ scanOK (rest ++ y) (depthUpd c d)) ↔ _
    rw [ih (depthUpd c d)]
    tauto

theorem atom_strong (e : List Char)
    (h : ∀ c ∈ e, ¬(c = ',') ∧ ¬(c = '[') ∧ ¬(c = ']')) :
    ∀ d : Int, scanOK e d ∧ netd e d = d := by
  induction e with
  | nil => intro d; exact ⟨trivial, rfl⟩
  | cons c rest ih =>
    intro d
    have hc := h c (by simp)
    have hupd : depthUpd c d = d := by
      simp [depthUpd, hc.2.1, hc.2.2]
    have ih2 := ih (fun x hx => h x (by simp [hx])) d
    constructor
    · refine ⟨by tauto, ?_⟩
      rw [hupd]
      exact ih2.1
    · rw [netd_cons, hupd]
      exact ih2.2

theorem sfRaw_append (e t : List Char) : ∀ d : Int, scanOK e d →
    sfRaw (e ++ t) d =
      (e ++ (sfRaw t (netd e d)).1, (sfRaw t (netd e d)).2) := by
  induction e with
  | nil => intro d _; simp [netd_nil]
  | cons c rest ih =>
    intro d hok
    obtain ⟨hc, hok2⟩ := hok
    simp only [List.cons_append, sfRaw, if_neg hc, netd_cons]
    show (c :: (sfRaw (rest ++ t) (depthUpd c d)).1,
      (sfRaw (rest ++ t) (depthUpd c d)).2) = _
    rw [ih (depthUpd c d) hok2]

theorem strip_cons_ws (c : Char) (t : List Char) (h : isWs c = true) :
    strip (c :: t) = strip t := by
  simp [strip, List.dropWhile_cons, h]

theorem strip_length_le (t : List Char) : (strip t).length ≤ t.length := by
  simp only [strip, List.length_reverse]
  calc ((t.dropWhile isWs).reverse.dropWhile isWs).length
      ≤ (t.dropWhile isWs).reverse.length :=
        (List.dropWhile_sublist _).length_le
    _ = (t.dropWhile isWs).length := List.length_reverse _
    _ ≤ t.length := (List.dropWhile_sublist _).length_le

theorem split_first_sep (e rest : List Char) (hok : scanOK e 0)
    (hnet : netd e 0 = 0) (hs : strip e = e) :
    split_first (e ++ ',' :: rest) = (e, strip rest) := by
  unfold split_first
  rw [sfRaw_append e (',' :: rest) 0 hok, hnet]
  simp [sfRaw, hs]

theorem split_first_noSep (e : List Char) (hok : scanOK e 0)
    (hs : strip e = e) : split_first e = (e, []) := by
  have h2 : sfRaw e 0 = (e, none) := by
    have h3 := sfRaw_append e [] 0 hok
    simpa [sfRaw] using h3
  unfold split_first
  rw [h2]
  simp [hs]

theorem sfRaw_some_length : ∀ (s : List Char) (d : Int) (f r : List Char),
    sfRaw s d = (f, some r) → r.length < s.length := by
  intro s
  induction s with
  | nil => intro d f r h; simp [sfRaw] at h
  | cons c rest ih =>
    intro d f r h
    by_cases hc : c = ',' ∧ d = 0
    · rw [show sfRaw (c :: rest) d = ([], some rest) from by
        simp [sfRaw, hc]] at h
      have h2 : some rest = some r := congrArg Prod.snd h
      injection h2 with h2
      subst h2
      simp
    · simp only [sfRaw, if_neg hc] at h
      have h2 : (sfRaw rest (depthUpd c d)).2 = some r :=
        congrArg Prod.snd h
      have h4 : sfRaw rest (depthUpd c d)
          = ((sfRaw rest (depthUpd c d)).1, some r) := by
        rw [← h2]
      have h5 := ih (depthUpd c d) _ r h4
      simp only [List.length_cons]
      omega

theorem split_first_snd_length (s : List Char)
    (h : (split_first s).2 ≠ []) : (split_first s).2.length < s.length := by
  unfold split_first at h ⊢
  cases h2 : sfRaw s 0 with
  | mk f o =>
    cases o with
    | none => rw [h2] at h; simp at h
    | some r =>
      have h3 := sfRaw_some_length s 0 f r h2
      have h4 := strip_length_le r
      show (strip r).length < s.length
      omega

theorem slF_fuel : ∀ (m f1 f2 : Nat) (s : List Char), s.length ≤ m →
    s.length < f1 → s.length < f2 → slF f1 s = slF f2 s := by
  intro m
  induction m with
  | zero =>
    intro f1 f2 s hm h1 h2
    obtain ⟨g1, rfl⟩ : ∃ g1, f1 = g1 + 1 := ⟨f1 - 1, by omega⟩
    obtain ⟨g2, rfl⟩ : ∃ g2, f2 = g2 + 1 := ⟨f2 - 1, by omega⟩
    simp only [slF]
    by_cases hp : (split_first s).2 = []
    · rw [if_pos hp, if_pos hp]
    · have := split_first_snd_length s hp
      omega
  | succ m ih =>
    intro f1 f2 s hm h1 h2
    obtain ⟨g1, rfl⟩ : ∃ g1, f1 = g1 + 1 := ⟨f1 - 1, by omega⟩
    obtain ⟨g2, rfl⟩ : ∃ g2, f2 = g2 + 1 := ⟨f2 - 1, by omega⟩
    simp only [slF]
    by_cases hp : (split_first s).2 = []
    · rw [if_pos hp, if_pos hp]
    · have hlt := split_first_snd_length s hp
      rw [if_neg hp, if_neg hp]
      rw [ih g1 g2 (split_first s).2 (by omega) (by omega) (by omega)]

theorem split_level_step (s : List Char) :
    split_level s =
      if (split_first s).2 = [] then [(split_first s).1]
      else (split_first s).1 :: split_level (split_first s).2 := by
  show slF (s.length + 1) s = _
  simp only [slF]
  by_cases hp : (split_first s).2 = []
  · rw [if_pos hp, if_pos hp]
  · have hlt := split_first_snd_length s hp
    rw [if_neg hp, if_neg hp]
    rw [slF_fuel s.length s.length ((split_first s).2.length + 1)
      (split_first s).2 (by omega) (by omega) (by omega)]
    rfl

theorem joinAtoms_ne_nil (e : List Char) (es : List (List Char))
    (h : e ≠ []) : joinAtoms (e :: es) ≠ [] := by
  cases es with
  | nil => simpa [joinAtoms] using h
  | cons e2 rest => simp [joinAtoms, h]

theorem joinAtoms_head (e : List Char) (es : List (List Char))
    (h : e ≠ []) : (joinAtoms (e :: es)).head? = e.head? := by
  cases es with
  | nil => rfl
  | cons e2 rest =>
    simp only [joinAtoms]
    cases e with
    | nil => exact absurd rfl h
    | cons c cs => simp

theorem joinAtoms_getLast : ∀ (es : List (List Char)) (e : List Char),
    (∀ x ∈ e :: es, x ≠ []) →
    ∃ z ∈ e :: es, (joinAtoms (e :: es)).getLast? = z.getLast? := by
  intro es
  induction es with
  | nil => intro e _; exact ⟨e, by simp, rfl⟩
  | cons e2 rest ih =>
    intro e h
    have hne2 : joinAtoms (e2 :: rest) ≠ [] :=
      joinAtoms_ne_nil e2 rest (h e2 (by simp))
    obtain ⟨z, hz, h2⟩ := ih e2 (fun x hx => h x (by simp at hx ⊢; tauto))
    refine ⟨z, by simp at hz ⊢; tauto, ?_⟩
    simp only [joinAtoms]
    rw [show (e ++ [',', ' ']) ++ joinAtoms (e2 :: rest)
      = e ++ ([',', ' '] ++ joinAtoms (e2 :: rest)) from by simp]
    rw [List.getLast?_append, List.getLast?_append]
    obtain ⟨c, hc⟩ : ∃ c, (joinAtoms (e2 :: rest)).getLast? = some c := by
      cases hj : (joinAtoms (e2 :: rest)).getLast? with
      | none => exact absurd (by simpa using hj) hne2
      | some c => exact ⟨c, rfl⟩
    rw [hc, ← h2, hc]
    rfl

theorem joinAtoms_append : ∀ (xs ys : List (List Char)), xs ≠ [] →
    ys ≠ [] →
    joinAtoms (xs ++ ys) = (joinAtoms xs ++ [',', ' ']) ++ joinAtoms ys := by
  intro xs
  induction xs with
  | nil => intro ys h _; exact absurd rfl h
  | cons x xs2 ih =>
    intro ys _ hys
    cases xs2 with
    | nil =>
      cases ys with
      | nil => exact absurd rfl hys
      | cons y ys2 => simp [joinAtoms]
    | cons x2 xs3 =>
      have h2 := ih ys (by simp) hys
      simp only [List.cons_append, joinAtoms]
      rw [show (x2 :: xs3) ++ ys = x2 :: (xs3 ++ ys) from rfl] at h2
      show x ++ [',', ' '] ++ joinAtoms (x2 :: (xs3 ++ ys)) = _
      rw [h2]
      simp [List.append_assoc]

theorem joinRepr_eq : ∀ (s : List AEGraph), s ≠ [] →
    joinRepr s = joinAtoms (s.map reprG) ++ [',', ' '] := by
  intro s
  induction s with
  | nil => intro h; exact absurd rfl h
  | cons g gs ih =>
    intro _
    cases gs with
    | nil => simp [joinRepr, joinAtoms]
    | cons g2 gs2 =>
      have h2 := ih (by simp)
      simp only [joinRepr, List.map_cons, joinAtoms] at h2 ⊢
      rw [h2]
      simp

theorem reprG_shape (b : Bool) (a : List (List Char)) (s : List AEGraph) :
    reprG (.mk b a s)
      = leftc b :: joinAtoms (reprElems a s) ++ [rightc b] := by
  show (if a.length ≠ 0 then _ else if s.length ≠ 0 then _ else _) = _
  by_cases ha : a.length ≠ 0
  · rw [if_pos ha]
    cases s with
    | nil =>
      simp only [reprElems, List.map_nil, List.nil_append, joinRepr]
      rfl
    | cons g gs =>
      have h2 := joinRepr_eq (g :: gs) (by simp)
      have h3 := joinAtoms_append ((g :: gs).map reprG) a (by simp)
        (by intro h; rw [h] at ha; simp at ha)
      simp only [reprElems]
      rw [h2, h3]
      rfl
  · rw [if_neg ha]
    have ha2 : a = [] := by
      cases a with
      | nil => rfl
      | cons x xs => simp at ha
    subst ha2
    by_cases hs : s.length ≠ 0
    · rw [if_pos hs]
      obtain ⟨g, gs, rfl⟩ : ∃ g gs, s = g :: gs := by
        cases s with
        | nil => simp at hs
        | cons g gs => exact ⟨g, gs, rfl⟩
      have h2 := joinRepr_eq (g :: gs) (by simp)
      rw [h2]
      simp only [reprElems, List.append_nil]
      rw [show joinAtoms ((g :: gs).map reprG) ++ [',', ' ']
        = (joinAtoms ((g :: gs).map reprG) ++ [',']) ++ [' '] from by simp]
      rw [List.dropLast_concat, List.dropLast_concat]
      rfl
    · rw [if_neg hs]
      have hs2 : s = [] := by
        cases s with
        | nil => rfl
        | cons x xs => simp at hs
      subst hs2
      rfl

theorem reprG_ne_nil (g : AEGraph) : reprG g ≠ [] := by
  cases g with
  | mk b a s =>
    rw [reprG_shape]
    simp

theorem reprG_head (b : Bool) (a : List (List Char)) (s : List AEGraph) :
    (reprG (.mk b a s)).head? = some (leftc b) := by
  rw [reprG_shape]
  rfl

theorem reprG_getLast (b : Bool) (a : List (List Char))
    (s : List AEGraph) :
    (reprG (.mk b a s)).getLast? = some (rightc b) := by
  rw [reprG_shape]
  rw [show leftc b :: joinAtoms (reprElems a s) ++ [rightc b]
    = (leftc b :: joinAtoms (reprElems a s)) ++ [rightc b] from rfl]
  exact List.getLast?_concat _

theorem reprG_strip (g : AEGraph) : strip (reprG g) = reprG g := by
  cases g with
  | mk b a s =>
    refine strip_eq_self _ ?_ ?_
    · intro c hc
      rw [reprG_head] at hc
      injection hc with hc
      subst hc
      cases b <;> rfl
    · intro c hc
      rw [reprG_getLast] at hc
      injection hc with hc
      subst hc
      cases b <;> rfl

theorem joinAtoms_strong : ∀ (es : List (List Char)),
    (∀ x ∈ es, ∀ d : Int, 0 ≤ d → scanOK x d ∧ netd x d = d) →
    ∀ d : Int, 1 ≤ d →
      scanOK (joinAtoms es) d ∧ netd (joinAtoms es) d = d := by
  intro es
  induction es with
  | nil => intro _ d _; exact ⟨trivial, rfl⟩
  | cons e es2 ih =>
    intro h d hd
    cases es2 with
    | nil => exact h e (by simp) d (by omega)
    | cons e2 rest =>
      have he := h e (by simp) d (by omega)
      have hsep : scanOK [',', ' '] d ∧ netd [',', ' '] d = d := by
        refine ⟨⟨by omega, by constructor; tauto; trivial⟩, ?_⟩
        simp [netd, depthUpd]
      have hih := ih (fun x hx => h x (by simp at hx ⊢; tauto)) d hd
      rw [show joinAtoms (e :: e2 :: rest)
        = e ++ ([',', ' '] ++ joinAtoms (e2 :: rest)) from by
        simp [joinAtoms]]
      constructor
      · rw [scanOK_append, scanOK_append, he.2]
        refine ⟨he.1, hsep.1, ?_⟩
        rw [hsep.2]
        exact hih.1
      · rw [netd_append, netd_append, he.2, hsep.2]
        exact hih.2

theorem wfL_iff : ∀ s : List AEGraph,
    wfL s = true ↔ ∀ c ∈ s, c.is_SA = false ∧ wfG c = true := by
  intro s
  induction s with
  | nil => simp [wfL]
  | cons g gs ih =>
    simp only [wfL, Bool.and_eq_true, Bool.not_eq_true', ih]
    constructor
    · rintro ⟨⟨h1, h2⟩, h3⟩ c hc
      rcases List.mem_cons.mp hc with rfl | hc2
      · exact ⟨h1, h2⟩
      · exact h3 c hc2
    · intro h
      exact ⟨⟨(h g (by simp)).1, (h g (by simp)).2⟩,
        fun c hc => h c (by simp [hc])⟩

theorem repr_strong : ∀ g : AEGraph, wfG g = true → g.is_SA = false →
    ∀ d : Int, 0 ≤ d → scanOK (reprG g) d ∧ netd (reprG g) d = d := by
  intro g
  induction g using AEGraph.myInd with
  | h b a s ih =>
    intro hwf hsa d hd
    simp only [AEGraph.is_SA_mk] at hsa
    subst hsa
    have hwf2 : (!(a.isEmpty && s.isEmpty) && a.all wfAtomB && wfL s)
        = true := hwf
    simp only [Bool.and_eq_true, List.all_eq_true] at hwf2
    have hels : ∀ x ∈ reprElems a s, ∀ d2 : Int, 0 ≤ d2 →
        scanOK x d2 ∧ netd x d2 = d2 := by
      intro x hx d2 hd2
      rcases List.mem_append.mp hx with hx2 | hx2
      · obtain ⟨c, hc, rfl⟩ := List.mem_map.mp hx2
        have hcw := (wfL_iff s).mp hwf2.2 c hc
        exact ih c hc hcw.2 hcw.1 d2 hd2
      · have hp := wfAtomB_parts x (hwf2.1.2 x hx2)
        exact atom_strong x hp.2.2 d2
    have hinner := joinAtoms_strong (reprElems a s) hels (d + 1) (by omega)
    rw [reprG_shape]
    constructor
    · show ¬(leftc false = ',' ∧ d = 0) ∧
        scanOK (joinAtoms (reprElems a s) ++ [rightc false])
          (depthUpd (leftc false) d)
      refine ⟨by simp [leftc], ?_⟩
      rw [show depthUpd (leftc false) d = d + 1 from by simp [leftc, depthUpd]]
      rw [scanOK_append, hinner.2]
      exact ⟨hinner.1, by simp [scanOK, rightc], trivial⟩
    · show netd (joinAtoms (reprElems a s) ++ [rightc false])
        (depthUpd (leftc false) d) = d
      rw [show depthUpd (leftc false) d = d + 1 from by simp [leftc, depthUpd]]
      rw [netd_append, hinner.2]
      simp [netd, rightc, depthUpd]

theorem wfG_parts (b : Bool) (a : List (List Char)) (s : List AEGraph)
    (h : wfG (.mk b a s) = true) :
    ¬(a = [] ∧ s = []) ∧ (∀ x ∈ a, wfAtomB x = true) ∧
      ∀ c ∈ s, c.is_SA = false ∧ wfG c = true := by
  have h2 : (!(a.isEmpty && s.isEmpty) && a.all wfAtomB && wfL s) = true := h
  simp only [Bool.and_eq_true, Bool.not_eq_true', Bool.and_eq_false_iff,
    List.all_eq_true] at h2
  obtain ⟨⟨h3, h4⟩, h5⟩ := h2
  refine ⟨?_, h4, (wfL_iff s).mp h5⟩
  rintro ⟨rfl, rfl⟩
  simp at h3

theorem canonicalB_parts (b : Bool) (a : List (List Char))
    (s : List AEGraph) (h : canonicalB (.mk b a s) = true) :
    sortedB strLe a = true ∧ sortedB graphLe s = true ∧
      ∀ c ∈ s, canonicalB c = true := by
  have h2 : (sortedB strLe a && sortedB graphLe s && canL s) = true := h
  simp only [Bool.and_eq_true] at h2
  exact ⟨h2.1.1, h2.1.2, (canL_iff s).mp h2.2⟩

theorem sortG_eq_self : ∀ g : AEGraph, canonicalB g = true →
    sortG g = g := by
  intro g
  induction g using AEGraph.myInd with
  | h b a s ih =>
    intro h
    obtain ⟨h1, h2, h3⟩ := canonicalB_parts b a s h
    show AEGraph.mk b (isort strLe a) (isort graphLe (sortL s)) = _
    rw [isort_eq_self a h1, sortL_eq_map]
    have hmap : s.map sortG = s := by
      have h4 : s.map sortG = s.map id :=
        List.map_congr_left (fun c hc => ih c hc (h3 c hc))
      simp [h4]
    rw [hmap, isort_eq_self s h2]

theorem split_level_joinAtoms : ∀ (es : List (List Char)) (e : List Char),
    (∀ x ∈ e :: es, x ≠ [] ∧
      (x.head?.all fun c => !isWs c) = true ∧
      (x.getLast?.all fun c => !isWs c) = true ∧
      scanOK x 0 ∧ netd x 0 = 0) →
    split_level (joinAtoms (e :: es)) = e :: es := by
  intro es
  induction es with
  | nil =>
    intro e h
    obtain ⟨hne, hhd, hlast, hok, -⟩ := h e (by simp)
    have hstrip : strip e = e := by
      refine strip_eq_self e ?_ ?_
      · intro c hc
        rw [hc] at hhd
        simpa using hhd
      · intro c hc
        rw [hc] at hlast
        simpa using hlast
    show split_level e = [e]
    rw [split_level_step, split_first_noSep e hok hstrip]
    simp
  | cons e2 rest ih =>
    intro e h
    obtain ⟨hne, hhd, hlast, hok, hnet⟩ := h e (by simp)
    have hstrip : strip e = e := by
      refine strip_eq_self e ?_ ?_
      · intro c hc
        rw [hc] at hhd
        simpa using hhd
      · intro c hc
        rw [hc] at hlast
        simpa using hlast
    have hJne : joinAtoms (e2 :: rest) ≠ [] :=
      joinAtoms_ne_nil e2 rest (h e2 (by simp)).1
    have hJstrip : strip (joinAtoms (e2 :: rest)) = joinAtoms (e2 :: rest) := by
      refine strip_eq_self _ ?_ ?_
      · intro c hc
        rw [joinAtoms_head e2 rest (h e2 (by simp)).1] at hc
        have := (h e2 (by simp)).2.1
        rw [hc] at this
        simpa using this
      · intro c hc
        obtain ⟨z, hz, hzeq⟩ := joinAtoms_getLast rest e2
          (fun x hx => (h x (by simp at hx ⊢; tauto)).1)
        rw [hzeq] at hc
        have hzwf := (h z (by simp at hz ⊢; tauto)).2.2.1
        rw [hc] at hzwf
        simpa using hzwf
    rw [show joinAtoms (e :: e2 :: rest)
      = e ++ ',' :: (' ' :: joinAtoms (e2 :: rest)) from by
      simp [joinAtoms]]
    rw [split_level_step]
    rw [split_first_sep e _ hok hnet hstrip]
    rw [show strip (' ' :: joinAtoms (e2 :: rest))
      = joinAtoms (e2 :: rest) from by
      rw [strip_cons_ws _ _ (by rfl), hJstrip]]
    rw [if_neg hJne]
    rw [ih e2 (fun x hx => h x (by simp at hx ⊢; tauto))]

theorem mapOptG_map (f : Nat) : ∀ (s : List AEGraph),
    (∀ c ∈ s, ofStringFuel f (reprG c) = some c) →
    mapOptG (fun e => ofStringFuel f e) (s.map reprG) = some s := by
  intro s
  induction s with
  | nil => intro _; rfl
  | cons c cs ih =>
    intro h
    simp only [List.map_cons, mapOptG, h c (by simp),
      ih (fun x hx => h x (by simp [hx]))]

theorem depthG_le_depthL : ∀ (s : List AEGraph) (c : AEGraph), c ∈ s →
    depthG c ≤ depthL s := by
  intro s
  induction s with
  | nil => intro c hc; simp at hc
  | cons g gs ih =>
    intro c hc
    rcases List.mem_cons.mp hc with rfl | hc2
    · simp [depthL, Nat.le_max_left]
    · calc depthG c ≤ depthL gs := ih c hc2
        _ ≤ depthL (g :: gs) := by simp [depthL, Nat.le_max_right]

theorem mem_joinAtoms_length : ∀ (es : List (List Char)) (x : List Char),
    x ∈ es → x.length ≤ (joinAtoms es).length := by
  intro es
  induction es with
  | nil => intro x hx; simp at hx
  | cons e es2 ih =>
    intro x hx
    cases es2 with
    | nil =>
      have h2 : x = e := by simpa using hx
      subst h2
      exact le_refl _
    | cons e2 rest =>
      rcases List.mem_cons.mp hx with rfl | hx2
      · simp only [joinAtoms, List.length_append]
        omega
      · have h2 := ih x hx2
        simp only [joinAtoms, List.length_append]
        omega

theorem depthL_le : ∀ (s : List AEGraph) (m : Nat),
    (∀ c ∈ s, depthG c ≤ m) → depthL s ≤ m := by
  intro s
  induction s with
  | nil => intro m _; exact Nat.zero_le m
  | cons g gs ih =>
    intro m h
    show max (depthG g) (depthL gs) ≤ m
    exact max_le (h g (by simp)) (ih m (fun c hc => h c (by simp [hc])))

theorem depthG_le_reprG_length : ∀ g : AEGraph,
    depthG g ≤ (reprG g).length := by
  intro g
  induction g using AEGraph.myInd with
  | h b a s ih =>
    rw [reprG_shape]
    show depthL s + 1 ≤ _
    simp only [List.length_cons, List.length_append, List.length_singleton]
    have h2 : depthL s ≤ (joinAtoms (reprElems a s)).length := by
      cases s with
      | nil => simp [depthL]
      | cons g gs =>
        refine depthL_le _ _ ?_
        intro c hc
        calc depthG c ≤ (reprG c).length := ih c hc
          _ ≤ (joinAtoms (reprElems a (g :: gs))).length := by
            refine mem_joinAtoms_length _ _ ?_
            simp only [reprElems, List.mem_append]
            exact Or.inl (List.mem_map_of_mem reprG hc)
    omega

theorem ofStringFuel_concat (f : Nat) (c0 r : Char) (mid : List Char) :
    ofStringFuel (f + 1) (c0 :: (mid ++ [r])) =
      if (c0 = '(' ∧ r = ')') ∨ (c0 = '[' ∧ r = ']') then
        match mapOptG (fun e => ofStringFuel f e)
          ((split_level mid).filter fun e => e.head? == some '[') with
        | some gs => some (sortG (.mk (c0 == '(')
            ((split_level mid).filter fun e => !(e.head? == some '[')) gs))
        | none => none
      else none := by
  simp only [ofStringFuel]
  have hgl : ∀ (hpf : c0 :: (mid ++ [r]) ≠ []),
      (c0 :: (mid ++ [r])).getLast hpf = r := by
    intro hpf
    simp [List.getLast_append]
  rw [hgl]
  simp only [List.drop_succ_cons, List.drop_zero, List.dropLast_concat]

theorem roundtrip_aux : ∀ g : AEGraph, wfG g = true → canonicalB g = true →
    ∀ f : Nat, depthG g < f → ofStringFuel f (reprG g) = some g := by
  intro g
  induction g using AEGraph.myInd with
  | h b a s ih =>
    intro hwf hcan f hf
    obtain ⟨f2, rfl⟩ : ∃ f2, f = f2 + 1 := ⟨f - 1, by omega⟩
    obtain ⟨hne, hatoms, hsubs⟩ := wfG_parts b a s hwf
    obtain ⟨hsA, hsS, hscan⟩ := canonicalB_parts b a s hcan
    have helems : ∀ x ∈ reprElems a s, x ≠ [] ∧
        (x.head?.all fun c => !isWs c) = true ∧
        (x.getLast?.all fun c => !isWs c) = true ∧
        scanOK x 0 ∧ netd x 0 = 0 := by
      intro x hx
      rcases List.mem_append.mp hx with hx2 | hx2
      · obtain ⟨c, hc, rfl⟩ := List.mem_map.mp hx2
        obtain ⟨hcSA, hcwf⟩ := hsubs c hc
        have hstrong := repr_strong c hcwf hcSA 0 (le_refl 0)
        refine ⟨reprG_ne_nil c, ?_, ?_, hstrong.1, hstrong.2⟩
        · cases c with
          | mk cb ca cs =>
            rw [reprG_head]
            simp only [AEGraph.is_SA_mk] at hcSA
            subst hcSA
            rfl
        · cases c with
          | mk cb ca cs =>
            rw [reprG_getLast]
            simp only [AEGraph.is_SA_mk] at hcSA
            subst hcSA
            rfl
      · have hw := hatoms x hx2
        have hp := wfAtomB_parts x hw
        have hstrong := atom_strong x hp.2.2
        have hw2 : ((!x.isEmpty && (x.head?.all fun c => !isWs c) &&
            (x.getLast?.all fun c => !isWs c)) &&
            x.all fun c => !(c == ',' || c == '[' || c == ']')) = true := hw
        simp only [Bool.and_eq_true] at hw2
        exact ⟨hp.1, hw2.1.1.2, hw2.1.2, (hstrong 0).1, (hstrong 0).2⟩
    obtain ⟨e0, es0, helist⟩ : ∃ e0 es0, reprElems a s = e0 :: es0 := by
      cases hre : reprElems a s with
      | nil =>
        exfalso
        simp only [reprElems, List.append_eq_nil, List.map_eq_nil_iff] at hre
        exact hne ⟨hre.2, hre.1⟩
      | cons e0 es0 => exact ⟨e0, es0, rfl⟩
    have hsplit : split_level (joinAtoms (reprElems a s)) = reprElems a s := by
      rw [helist]
      exact split_level_joinAtoms es0 e0 (helist ▸ helems)
    have hparse : ∀ c ∈ s, ofStringFuel f2 (reprG c) = some c := by
      intro c hc
      have hd : depthG c < f2 := by
        have h1 := depthG_le_depthL s c hc
        have h2 : depthG (AEGraph.mk b a s) = depthL s + 1 := rfl
        omega
      exact ih c hc (hsubs c hc).2 (hscan c hc) f2 hd
    have hfilsub : (reprElems a s).filter
        (fun e => e.head? == some '[') = s.map reprG := by
      show (s.map reprG ++ a).filter _ = _
      rw [List.filter_append]
      rw [List.filter_eq_self.mpr ?h1]
      case h1 =>
        intro x hx
        obtain ⟨c, hc, rfl⟩ := List.mem_map.mp hx
        obtain ⟨hcSA, -⟩ := hsubs c hc
        cases c with
        | mk cb ca cs =>
          rw [reprG_head]
          simp only [AEGraph.is_SA_mk] at hcSA
          subst hcSA
          rfl
      rw [show a.filter (fun e => e.head? == some '[') = [] from ?h2]
      case h2 =>
        rw [List.filter_eq_nil_iff]
        intro x hx
        obtain ⟨hnex, -, hchars⟩ := wfAtomB_parts x (hatoms x hx)
        obtain ⟨c, cs, rfl⟩ : ∃ c cs, x = c :: cs := by
          cases x with
          | nil => exact absurd rfl hnex
          | cons c cs => exact ⟨c, cs, rfl⟩
        have hcb : ¬(c = '[') := (hchars c (by simp)).2.1
        simp [hcb]
      simp
    have hfilatom : (reprElems a s).filter
        (fun e => !(e.head? == some '[')) = a := by
      show (s.map reprG ++ a).filter _ = _
      rw [List.filter_append]
      rw [show (s.map reprG).filter (fun e => !(e.head? == some '[')) = []
        from ?h3]
      case h3 =>
        rw [List.filter_eq_nil_iff]
        intro x hx
        obtain ⟨c, hc, rfl⟩ := List.mem_map.mp hx
        obtain ⟨hcSA, -⟩ := hsubs c hc
        cases c with
        | mk cb ca cs =>
          rw [reprG_head]
          simp only [AEGraph.is_SA_mk] at hcSA
          subst hcSA
          simp [leftc]
      rw [List.filter_eq_self.mpr ?h4]
      case h4 =>
        intro x hx
        obtain ⟨hnex, -, hchars⟩ := wfAtomB_parts x (hatoms x hx)
        obtain ⟨c, cs, rfl⟩ : ∃ c cs, x = c :: cs := by
          cases x with
          | nil => exact absurd rfl hnex
          | cons c cs => exact ⟨c, cs, rfl⟩
        have hcb : ¬(c = '[') := (hchars c (by simp)).2.1
        simp [hcb]
      simp
    have hcond : (leftc b = '(' ∧ rightc b = ')') ∨
        (leftc b = '[' ∧ rightc b = ']') := by
      cases b
      · right
        exact ⟨rfl, rfl⟩
      · left
        exact ⟨rfl, rfl⟩
    rw [reprG_shape]
    rw [show leftc b :: joinAtoms (reprElems a s) ++ [rightc b]
      = leftc b :: (joinAtoms (reprElems a s) ++ [rightc b]) from rfl]
    rw [ofStringFuel_concat, if_pos hcond, hsplit, hfilsub, hfilatom]
    rw [mapOptG_map f2 s hparse]
    show some (sortG (.mk (leftc b == '(') a s)) = _
    rw [show (leftc b == '(') = b from by cases b <;> rfl]
    rw [sortG_eq_self (.mk b a s) hcan]

/-- C3 counterexample: the round-trip fails on a canonicalized,
constructor-produced graph.  `parse("(,,)")` yields the sheet node with
two empty-string atoms (canonical: its atom list is sorted), but its
rendered text `"(, )"` parses back to the node with a *single* empty
atom, whose canonical text is `"()"`: `parse(render(g))` differs from
`g` both structurally and in canonical textual form (the trailing empty
element after the last comma is dropped by `split_level`). -/
theorem C3_roundtrip_counterexample :
    AEGraph.ofString "(,,)".toList = some (.mk true [[], []] []) ∧
    canonicalB (.mk true [[], []] []) = true ∧
    reprG (.mk true [[], []] []) = "(, )".toList ∧
    AEGraph.ofString (reprG (.mk true [[], []] []))
      = some (.mk true [[]] []) ∧
    (AEGraph.ofString (reprG (.mk true [[], []] []))).map reprG
      = some "()".toList := by
  decide

/-- C3 (amended): for every canonicalized graph all of whose atoms are
well-formed tokens (nonempty, no surrounding whitespace, free of `,`,
`[`, `]`), whose nodes are nonempty and whose nested nodes are all
cuts, parsing the rendered text returns exactly the graph itself —
structural equality, which is stronger than the claimed equality of
canonical textual forms.  Graphs with empty-string atoms (which the
constructor can produce, see the counterexample) are excluded. -/
theorem C3_roundtrip_wf (g : AEGraph) (hwf : wfG g = true)
    (hcan : canonicalB g = true) :
    AEGraph.ofString (reprG g) = some g := by
  show ofStringFuel ((reprG g).length + 1) (reprG g) = some g
  refine roundtrip_aux g hwf hcan _ ?_
  have h2 := depthG_le_reprG_length g
  omega

theorem C3_roundtrip_wf_witness :
    wfG (.mk true [['A']] [.mk false [['B']] []]) = true ∧
    canonicalB (.mk true [['A']] [.mk false [['B']] []]) = true ∧
    AEGraph.ofString (reprG (.mk true [['A']] [.mk false [['B']] []]))
      = some (.mk true [['A']] [.mk false [['B']] []]) :=
  ⟨by decide, by decide, C3_roundtrip_wf _ (by decide) (by decide)⟩
